import Mathlib

/-!
Verification of the core of the `mly` MIDI command-line utility.

The development shallowly embeds the loop-detection engine
(`src/loop_find.rs`), the per-channel MIDI state model (`src/state.rs`),
the event inspectors (`src/event.rs`), the timekeeping subsystem
(`src/time.rs`) and the SMF0 flattener (`src/smf.rs`) as executable Lean
functions over lists, and proves (or refutes) the specified properties of
those functions.

Machine integers are modelled as `Nat`; wherever the Rust code can
truncate (the `u28` delta constructed in the flattener, the `u64`
arithmetic of `total_pulse`) the model keeps an explicit `% 2 ^ w`.
`std::time::Duration` values are modelled as natural numbers of
nanoseconds; the `mul_f64/div_f64` rounding of the realtime *value* is
abstracted to exact natural arithmetic, which is irrelevant to the
properties proved here (they only inspect definedness of `realtime`).
-/

/-- One of the MIDI channel-voice messages carried by a track event
(mirrors `midly::MidiMessage`). -/
inductive MidiMessage where
  | noteOff (key vel : Nat)
  | noteOn (key vel : Nat)
  | aftertouch (key vel : Nat)
  | controller (controller value : Nat)
  | programChange (program : Nat)
  | channelPressure (vel : Nat)
  | pitchBend (bend : Nat)
deriving DecidableEq

/-- Meta events; only `tempo` and `endOfTrack` are interpreted by the core,
all others are carried opaquely (mirrors `midly::MetaMessage`). -/
inductive MetaMessage where
  | tempo (tempo : Nat)
  | endOfTrack
  | otherMeta (tag : Nat) (data : List Nat)
deriving DecidableEq

/-- The kind of a track event (mirrors `midly::TrackEventKind`). -/
inductive TrackEventKind where
  | midi (channel : Nat) (message : MidiMessage)
  | sysEx (data : List Nat)
  | escape (data : List Nat)
  | meta (message : MetaMessage)
deriving DecidableEq

/-- A track event: a delta time in pulses plus a kind
(mirrors `midly::TrackEvent`). -/
structure TrackEvent where
  delta : Nat
  kind : TrackEventKind
deriving DecidableEq

/-- The placeholder event used for out-of-range indexing in the model.
The Rust code indexes slices directly (a panic on out-of-range); the
safety claim C10 shows every index used by the engine is in range. -/
def defaultEvent : TrackEvent := ⟨0, .meta .endOfTrack⟩

instance : Inhabited TrackEvent := ⟨defaultEvent⟩

/-- Header timing of an SMF (mirrors `midly::Timing`). -/
inductive Timing where
  | metrical (ppqn : Nat)
  | timecode (fps : Nat) (subframe : Nat)
deriving DecidableEq

/-! ## `src/event.rs`: event inspection wrappers -/

/-- Result of `event::note` (mirrors `event::Note`). -/
structure Note where
  channel : Nat
  key : Nat
  vel : Nat
deriving DecidableEq

/-- Mirrors `Note::is_on`: velocity strictly positive. -/
def Note.is_on (n : Note) : Bool := decide (0 < n.vel)

/-- Mirrors `event::note`: `some` exactly for NoteOn events (of any
velocity); NoteOff events yield `none`. -/
def note (ev : TrackEvent) : Option Note :=
  match ev.kind with
  | .midi channel (.noteOn key vel) => some ⟨channel, key, vel⟩
  | _ => none

/-- Mirrors `event::note_on`: NoteOn with positive velocity. -/
def note_on (ev : TrackEvent) : Option Note :=
  (note ev).filter fun n => n.is_on

/-- Result of `event::controller` (mirrors `event::Controller`). -/
structure EvController where
  channel : Nat
  controller : Nat
deriving DecidableEq

/-- Mirrors `event::controller`. -/
def controller (ev : TrackEvent) : Option EvController :=
  match ev.kind with
  | .midi channel (.controller c _) => some ⟨channel, c⟩
  | _ => none

/-! ## `src/state.rs`: per-channel MIDI state -/

/-- Mirrors `MidiStateOnChannel`: 128 controller values, a program and a
pitch bend. The `cc` list always has 128 entries. -/
structure MidiStateOnChannel where
  cc : List Nat
  program : Nat
  bend : Nat
deriving DecidableEq

/-- The default state of one channel: all controllers 0, program 0,
pitch bend at its mid raw value 8192. -/
def chDefault : MidiStateOnChannel := ⟨List.replicate 128 0, 0, 8192⟩

/-- Mirrors `MidiState`: 16 channels plus the global tempo. -/
structure MidiState where
  ch : List MidiStateOnChannel
  tempo : Nat
deriving DecidableEq

/-- Mirrors `MidiState::new`. -/
def MidiState.new : MidiState := ⟨List.replicate 16 chDefault, 0⟩

/-- Applies a function to one channel of the state, leaving the rest
unchanged (models the in-place `self.ch[channel] = ...` writes). -/
def updateCh (s : MidiState) (channel : Nat) (f : MidiStateOnChannel → MidiStateOnChannel) : MidiState :=
  { s with ch := s.ch.set channel (f (s.ch.getD channel chDefault)) }

/-- Mirrors `MidiState::update`: controller, program-change and
pitch-bend messages update the addressed channel, a Tempo meta updates
the global tempo, and every other event is a no-op. -/
def MidiState.update (s : MidiState) (ev : TrackEvent) : MidiState :=
  let s1 :=
    match ev.kind with
    | .midi channel message =>
      match message with
      | .controller c value => updateCh s channel fun o => { o with cc := o.cc.set c value }
      | .programChange program => updateCh s channel fun o => { o with program := program }
      | .pitchBend bend => updateCh s channel fun o => { o with bend := bend }
      | _ => s
    | _ => s
  match ev.kind with
  | .meta (.tempo tempo) => { s1 with tempo := tempo }
  | _ => s1

/-! ## `src/loop_find.rs`: the loop-detection engine -/

/-- Mirrors `Loop`: a loop candidate, `len = 0` meaning "none". -/
structure Loop where
  start : Nat
  len : Nat
deriving DecidableEq

/-- Mirrors `Loop::better_than`: longer wins, ties broken by the earlier
start. -/
def Loop.better_than (a other : Loop) : Bool :=
  decide (other.len < a.len) || (decide (a.len = other.len) && decide (a.start < other.start))

/-- Mirrors `loop_contains_itself`: the body is rejected when, for some
factor dividing `len` with `2 ≤ factor ≤ len / 2`, all `factor` sections
of length `len / factor` coincide with the first one. -/
def loop_contains_itself (track : List TrackEvent) (found_loop : Loop) : Bool :=
  let track_at_loop_start := track.drop found_loop.start
  ((List.range' 2 (found_loop.len / 2 + 1 - 2)).filter fun x => found_loop.len % x == 0).any
    fun factor =>
      let section_len := found_loop.len / factor
      (List.range' 1 (factor - 1)).all fun section_i =>
        track_at_loop_start.take section_len ==
          (track_at_loop_start.drop (section_i * section_len)).take section_len

/-- Mirrors `is the start event a program change` (the inline pattern
match of `find_loop_ending_at`). -/
def is_program_change (ev : TrackEvent) : Bool :=
  match ev.kind with
  | .midi _ (.programChange _) => true
  | _ => false

/-- The accumulator of the body replay inside `find_loop_ending_at`:
`state_past`, the per-channel `played_a_note` flags (16 entries), the
per-channel `notes_active_on` counters (16 entries) and the collected
`redundant_ccs` pairs (channel, controller); the Rust `HashSet` is
modelled as a duplicate-free insertion list. -/
structure BodyScanAcc where
  state_past : MidiState
  played_a_note : List Bool
  notes_active_on : List Nat
  redundant_ccs : List (Nat × Nat)
deriving DecidableEq

/-- One step of the body replay of `find_loop_ending_at` (the body of
its `for ev in track.iter().skip(start).take(len)` loop). -/
def bodyScanStep (acc : BodyScanAcc) (ev : TrackEvent) : BodyScanAcc :=
  let acc := { acc with state_past := acc.state_past.update ev }
  let acc :=
    match note ev with
    | some n =>
      if n.is_on then
        { acc with
          played_a_note := acc.played_a_note.set n.channel true
          notes_active_on := acc.notes_active_on.set n.channel (acc.notes_active_on.getD n.channel 0 + 1) }
      else if decide (0 < acc.notes_active_on.getD n.channel 0) then
        { acc with
          notes_active_on := acc.notes_active_on.set n.channel (acc.notes_active_on.getD n.channel 0 - 1) }
      else acc
    | none => acc
  match controller ev with
  | some c =>
    if !(acc.played_a_note.getD c.channel false) && !(acc.redundant_ccs.contains (c.channel, c.controller)) then
      { acc with redundant_ccs := acc.redundant_ccs ++ [(c.channel, c.controller)] }
    else acc
  | none => acc

/-- The fresh accumulator for the body replay: `state_past` cloned from
`state_before`, no note played, no note active, no redundant CC. -/
def scanInit (state_before : MidiState) : BodyScanAcc :=
  ⟨state_before, List.replicate 16 false, List.replicate 16 0, []⟩

/-- Reads one controller value out of a state. -/
def getCC (s : MidiState) (ch cc : Nat) : Nat :=
  (s.ch.getD ch chDefault).cc.getD cc 0

/-- Writes one controller value into a state. -/
def setCC (s : MidiState) (ch cc v : Nat) : MidiState :=
  updateCh s ch fun o => { o with cc := o.cc.set cc v }

/-- Mirrors the deferred redundant-CC override: for each collected pair,
`state_past`'s controller value is replaced by `state_before`'s. -/
def applyRedundant (state_past state_before : MidiState) (ccs : List (Nat × Nat)) : MidiState :=
  ccs.foldl (fun sp p => setCC sp p.1 p.2 (getCC state_before p.1 p.2)) state_past

/-- Mirrors the recording-space acceptance test of `find_loop_ending_at`:
some channel has an active note at the loop boundary while its channel
state differs between the two endpoints. -/
def active_mismatch (state_before : MidiState) (scan : BodyScanAcc) : Bool :=
  (List.range 16).any fun ch =>
    decide (0 < scan.notes_active_on.getD ch 0) &&
      !(state_before.ch.getD ch chDefault == scan.state_past.ch.getD ch chDefault)

/-- The replay of the candidate body `track[start..start+len)` from the
channel state `sb` held at the start, computing `state_past`, the
`played_a_note` flags, the `notes_active_on` counters and the
`redundant_ccs` set. -/
def scan_from (track : List TrackEvent) (cursor s : Nat) (sb : MidiState) : BodyScanAcc :=
  ((track.drop s).take (cursor - s)).foldl bodyScanStep (scanInit sb)

/-- The first four `continue` checks of `find_loop_ending_at`'s start
loop, in source order: the pulse-boundary rule on both endpoint events,
the no-program-change rule, full structural equality of the endpoint
events, and element-wise equality of the body with its proof range. -/
def base_rules (track : List TrackEvent) (cursor s : Nat) : Bool :=
  !((track.getD s defaultEvent).delta == 0 || (track.getD cursor defaultEvent).delta == 0) &&
    !(is_program_change (track.getD s defaultEvent)) &&
    (track.getD s defaultEvent == track.getD cursor defaultEvent) &&
    ((track.drop s).take (cursor - s) == (track.drop cursor).take (cursor - s))

/-- The recording-space-only acceptance test, from the state `sb` held
at the start: no channel with an active note at the boundary may have
differing endpoint channel state. -/
def active_ok_from (track : List TrackEvent) (cursor s : Nat) (sb : MidiState) : Bool :=
  !(active_mismatch sb (scan_from track cursor s sb))

/-- The endpoint-state test, from the state `sb` held at the start:
after the redundant-CC override, `state_before` must equal
`state_past`. -/
def state_matches_from (track : List TrackEvent) (cursor s : Nat) (sb : MidiState) : Bool :=
  sb == applyRedundant (scan_from track cursor s sb).state_past sb
    (scan_from track cursor s sb).redundant_ccs

/-- All checks of one iteration of `find_loop_ending_at`'s start loop,
conjoined in source order, with `sb` the channel state the loop holds in
`state_before` when examining start `s` (the iteration `return`s the
loop exactly when none of its `continue` checks fires, so the
conjunction is the iteration's decision). The active-note test is only
imposed `in_recording_space`; the endpoint-state test is unconditional. -/
def acceptsFrom (track : List TrackEvent) (cursor : Nat) (in_recording_space : Bool)
    (sb : MidiState) (s : Nat) : Bool :=
  base_rules track cursor s &&
    !(in_recording_space && !(active_ok_from track cursor s sb)) &&
    state_matches_from track cursor s sb &&
    !(loop_contains_itself track ⟨s, cursor - s⟩)

/-- The start-scanning loop of `find_loop_ending_at`: `state_before` is
threaded through the iterations and updated with the start event before
the checks, exactly as in the source. -/
def fleaGo (track : List TrackEvent) (cursor : Nat) (in_recording_space : Bool) :
    MidiState → List Nat → Option Loop
  | _, [] => none
  | state_before, start :: rest =>
    if acceptsFrom track cursor in_recording_space
        (state_before.update (track.getD start defaultEvent)) start
    then some ⟨start, cursor - start⟩
    else fleaGo track cursor in_recording_space
      (state_before.update (track.getD start defaultEvent)) rest

/-- Mirrors `find_loop_ending_at`: replay the prefix before
`earliest_start`, then scan candidate starts in
`earliest_start..(cursor - min_len)`. -/
def find_loop_ending_at (cursor earliest_start min_len : Nat) (track : List TrackEvent)
    (in_recording_space : Bool) : Option Loop :=
  fleaGo track cursor in_recording_space
    ((track.take earliest_start).foldl MidiState.update MidiState.new)
    (List.range' earliest_start (cursor - min_len - earliest_start))

/-- One step of the per-worker fold of `find` (the closure given to
`fold_with`): a found loop replaces the accumulator. -/
def loop_step (track : List TrackEvent) (longest : Loop) (cursor : Nat) : Loop :=
  (find_loop_ending_at cursor 0 longest.len track false).getD longest

/-- The fold a single rayon worker performs over its chunk of cursors,
starting from the default loop. -/
def worker_fold (track : List TrackEvent) (cursors : List Nat) : Loop :=
  cursors.foldl (loop_step track) ⟨0, 0⟩

/-- The note-space search of `find`, sequential form: the fold over all
cursors `0..track.len()`. -/
def find_note_loop (track : List TrackEvent) : Loop :=
  worker_fold track (List.range track.length)

/-- The combiner of `find`'s parallel `reduce`. -/
def comb (a b : Loop) : Loop := if a.better_than b then a else b

/-- The parallel reduction of per-worker results, left fold form. -/
def reduce_loops (l : List Loop) : Loop := l.foldl comb ⟨0, 0⟩

/-- The recording-space search of `find`: first hit of
`find_loop_ending_at` over cursors past the note-space loop, with the
start pinned and `min_len = 0`. -/
def find_recording_loop (track : List TrackEvent) (note_loop : Loop) : Loop :=
  (((List.range' (note_loop.start + note_loop.len)
        (track.length - (note_loop.start + note_loop.len))).findSome?
      fun cursor => find_loop_ending_at cursor note_loop.start 0 track true).getD ⟨0, 0⟩)

/-! ### Characterisation of the engine

The following definitions recompute, for one candidate start `s` at one
cursor, the quantities `find_loop_ending_at` maintains incrementally.
They are proved equivalent to the threaded computation below and are the
vocabulary of the claims. -/

/-- The channel state that `find_loop_ending_at` holds in `state_before`
when it examines candidate start `s`: the replay of `track[0..=s]`,
that is of the first `s + 1` events, including the start event itself. -/
def state_before_at (track : List TrackEvent) (s : Nat) : MidiState :=
  (track.take (s + 1)).foldl MidiState.update MidiState.new

/-- The body replay of candidate `(s, cursor - s)` starting from
`state_before_at`. -/
def body_scan (track : List TrackEvent) (cursor s : Nat) : BodyScanAcc :=
  scan_from track cursor s (state_before_at track s)

/-- The endpoint-state test at candidate start `s`: after the
redundant-CC override, `state_before` equals `state_past`. -/
def state_matches (track : List TrackEvent) (cursor s : Nat) : Bool :=
  state_matches_from track cursor s (state_before_at track s)

/-- The recording-space-only test at candidate start `s`: no channel
with an active note at the boundary has differing endpoint channel
state. -/
def active_ok (track : List TrackEvent) (cursor s : Nat) : Bool :=
  active_ok_from track cursor s (state_before_at track s)

/-- Whether candidate start `s` passes every check of
`find_loop_ending_at` at `cursor`; the active-note test is only imposed
when `in_recording_space`. -/
def accepts (track : List TrackEvent) (cursor : Nat) (in_recording_space : Bool) (s : Nat) : Bool :=
  acceptsFrom track cursor in_recording_space (state_before_at track s) s

/-- The first start accepted at `cursor` when the whole range `0..cursor`
is searched (the `min_len = 0` search). -/
def cursor_best (track : List TrackEvent) (c : Nat) : Option Nat :=
  (List.range c).find? (accepts track c false)

/-- The loop obtained from `cursor_best`, or the default loop. -/
def cursor_best_loop (track : List TrackEvent) (c : Nat) : Loop :=
  match cursor_best track c with
  | some s => ⟨s, c - s⟩
  | none => ⟨0, 0⟩

/-! ## `src/time.rs`: timekeeping -/

/-- Mirrors `MidiTime`. Durations (`realtime`, `qn_duration`) are
natural numbers of nanoseconds. -/
structure MidiTime where
  pulse : Nat
  realtime : Option Nat
  qn_duration : Option Nat
  ppqn : Nat
  samplerate : Option Nat
deriving DecidableEq

/-- The state `MidiTime::new` builds for metrical timing with the given
PPQN (for timecode timing the constructor panics instead; see
`MidiTime.new`). -/
def midiTimeStart (ppqn : Nat) (samplerate : Option Nat) : MidiTime :=
  ⟨0, none, none, ppqn, samplerate⟩

/-- Mirrors `MidiTime::new`; `none` stands for the `unimplemented!`
panic on timecode timing. -/
def MidiTime.new (timing : Timing) (samplerate : Option Nat) : Option MidiTime :=
  match timing with
  | .metrical ppqn => some (midiTimeStart ppqn samplerate)
  | .timecode _ _ => none

/-- Does an event carry a Tempo meta message? -/
def isTempoEvent (ev : TrackEvent) : Bool :=
  match ev.kind with
  | .meta (.tempo _) => true
  | _ => false

/-- Mirrors the `Add<&TrackEvent>` implementation for `MidiTime`:
`pulse` grows by the delta; `realtime` is defined when a tempo is
already known and either `realtime` was already defined or the new
cumulative pulse is still 0; the tempo carried by the event itself takes
effect only after the event. -/
def MidiTime.add (t : MidiTime) (ev : TrackEvent) : MidiTime :=
  let pulse := t.pulse + ev.delta
  let realtime :=
    (t.qn_duration.filter fun _ => t.realtime.isSome || pulse == 0).map
      fun q => t.realtime.getD 0 + q * ev.delta / t.ppqn
  let qn_duration :=
    match ev.kind with
    | .meta (.tempo tempo) => some (1000 * tempo)
    | _ => t.qn_duration
  ⟨pulse, realtime, qn_duration, t.ppqn, t.samplerate⟩

/-! ### `PulseOrBeat` parsing -/

/-- Mirrors `PulseOrBeatValue`: a total pulse count or a
quarter-note:pulse pair. -/
inductive PulseOrBeatValue where
  | pulse (p : Nat)
  | beat (qn : Nat) (p : Nat)
deriving DecidableEq

/-- Mirrors `str::split_once(':')`: the pieces before and after the
first colon, or `none` when there is no colon. -/
def splitOnceColon : List Char → Option (List Char × List Char)
  | [] => none
  | c :: rest =>
    if c = ':' then some ([], rest)
    else (splitOnceColon rest).map fun p => (c :: p.1, p.2)

/-- The numeric value of an ASCII digit, or `none`. -/
def digitVal (c : Char) : Option Nat :=
  if '0' ≤ c ∧ c ≤ '9' then some (c.toNat - 48) else none

/-- Accumulating decimal parse of a digit string. -/
def parseDigitsGo (acc : Nat) : List Char → Option Nat
  | [] => some acc
  | c :: rest =>
    match digitVal c with
    | some d => parseDigitsGo (acc * 10 + d) rest
    | none => none

/-- Mirrors `str::parse` for an unsigned integer type whose exclusive
bound is `bound`: an optional leading plus sign, then a non-empty digit
string whose value fits the type. -/
def parseUnsigned (l : List Char) (bound : Nat) : Option Nat :=
  let l := if l.headD 'A' = '+' then l.tail else l
  if l = [] then none
  else (parseDigitsGo 0 l).bind fun n => if n < bound then some n else none

/-- Mirrors `PulseOrBeat::from_str`: split at the first colon; an empty
side defaults to `"0"`; the quarter-note part parses as `u64`, the pulse
part as `u16` and must additionally fit into 15 bits; without a colon
the whole string parses as a `u64` pulse count. `none` is any parse
error. -/
def PulseOrBeat.from_str (s : List Char) : Option PulseOrBeatValue :=
  match splitOnceColon s with
  | some (s_qn, s_pulse) =>
    let s_qn := if s_qn = [] then ['0'] else s_qn
    let s_pulse := if s_pulse = [] then ['0'] else s_pulse
    (parseUnsigned s_qn (2 ^ 64)).bind fun qn =>
      (parseUnsigned s_pulse (2 ^ 16)).bind fun p =>
        if p < 2 ^ 15 then some (.beat qn p) else none
  | none => (parseUnsigned s (2 ^ 64)).map .pulse

/-- Mirrors `PulseOrBeat::total_pulse`: a pulse value is returned as is,
a beat value resolves to `qn * ppqn + pulse` in `u64` arithmetic under
metrical timing, and timecode timing is an error (`none`). -/
def PulseOrBeatValue.total_pulse (v : PulseOrBeatValue) (timing : Timing) : Option Nat :=
  match v with
  | .pulse p => some p
  | .beat qn p =>
    match timing with
    | .metrical ppqn => some ((qn * ppqn + p) % 2 ^ 64)
    | .timecode _ _ => none

/-- The canonical decimal digit characters. -/
def digitChar (d : Nat) : Char :=
  if d = 0 then '0'
  else if d = 1 then '1'
  else if d = 2 then '2'
  else if d = 3 then '3'
  else if d = 4 then '4'
  else if d = 5 then '5'
  else if d = 6 then '6'
  else if d = 7 then '7'
  else if d = 8 then '8'
  else '9'

/-- The canonical decimal representation of a natural number as a
character list. -/
def natDecChars (n : Nat) : List Char :=
  if n = 0 then ['0'] else ((Nat.digits 10 n).reverse.map digitChar)

/-! ## `src/smf.rs`: the SMF0 flattener -/

/-- Is the event kind an EndOfTrack meta? -/
def isEOT (k : TrackEventKind) : Bool :=
  match k with
  | .meta .endOfTrack => true
  | _ => false

/-- Mirrors `TrackMerge`: the not-yet-consumed suffix of one source
track together with the absolute pulse `pulse_of_i` at which its next
event fires. -/
structure TrackMerge where
  remaining : List TrackEvent
  pulse_of_i : Nat
deriving DecidableEq

/-- The index of the first entry with minimal `pulse_of_i` (mirrors the
`min_by` call, which returns the first of equally minimal elements). -/
def minPofiIdx : List TrackMerge → Option Nat
  | [] => none
  | m :: rest =>
    match minPofiIdx rest with
    | none => some 0
    | some j =>
      if m.pulse_of_i ≤ (rest.getD j ⟨[], 0⟩).pulse_of_i then some 0 else some (j + 1)

/-- The summed number of remaining events, the termination measure of
the merge loop. -/
def sizeOfMerges (st : List TrackMerge) : Nat :=
  (st.map fun m => m.remaining.length).sum

def minPofiIdx_lt_length :
    ∀ (st : List TrackMerge) (j : Nat), minPofiIdx st = some j → j < st.length := by
  intro st
  induction st with
  | nil => intro j h; simp [minPofiIdx] at h
  | cons m rest ih =>
    intro j h
    simp only [minPofiIdx] at h
    cases hr : minPofiIdx rest with
    | none =>
      rw [hr] at h
      simp only [Option.some.injEq] at h
      simp only [List.length_cons]
      omega
    | some j0 =>
      rw [hr] at h
      simp only [List.length_cons]
      have h2 : (if m.pulse_of_i ≤ (rest.getD j0 ⟨[], 0⟩).pulse_of_i then some 0
          else some (j0 + 1)) = some j := h
      have hj' : j = 0 ∨ j = j0 + 1 := by
        by_cases hle : m.pulse_of_i ≤ (rest.getD j0 ⟨[], 0⟩).pulse_of_i
        · rw [if_pos hle] at h2
          exact Or.inl (Option.some.inj h2).symm
        · rw [if_neg hle] at h2
          exact Or.inr (Option.some.inj h2).symm
      have := ih j0 hr
      omega

def sizeOfMerges_eraseIdx :
    ∀ (st : List TrackMerge) (j : Nat), j < st.length →
      sizeOfMerges (st.eraseIdx j) + (st.getD j ⟨[], 0⟩).remaining.length = sizeOfMerges st := by
  intro st
  induction st with
  | nil => intro j h; simp at h
  | cons m rest ih =>
    intro j h
    cases j with
    | zero => simp [sizeOfMerges]; omega
    | succ j =>
      simp only [List.eraseIdx_cons_succ, List.getD_cons_succ]
      have := ih j (by simpa using h)
      simp only [sizeOfMerges, List.map_cons, List.sum_cons] at *
      omega

def sizeOfMerges_set :
    ∀ (st : List TrackMerge) (j : Nat) (m' : TrackMerge), j < st.length →
      sizeOfMerges (st.set j m') + (st.getD j ⟨[], 0⟩).remaining.length
        = sizeOfMerges st + m'.remaining.length := by
  intro st
  induction st with
  | nil => intro j m' h; simp at h
  | cons m rest ih =>
    intro j m' h
    cases j with
    | zero => simp [sizeOfMerges]; omega
    | succ j =>
      simp only [List.set_cons_succ, List.getD_cons_succ]
      have := ih j m' (by simpa using h)
      simp only [sizeOfMerges, List.map_cons, List.sum_cons] at *
      omega

def sizeOfMerges_dec_erase (st : List TrackMerge) (j : Nat) (ev : TrackEvent)
    (rest : List TrackEvent) (hj : minPofiIdx st = some j)
    (hm : (st.getD j ⟨[], 0⟩).remaining = ev :: rest) :
    sizeOfMerges (st.eraseIdx j) < sizeOfMerges st := by
  have hjl := minPofiIdx_lt_length st j hj
  have h := sizeOfMerges_eraseIdx st j hjl
  rw [hm] at h
  simp only [List.length_cons] at h
  omega

def sizeOfMerges_dec_set (st : List TrackMerge) (j : Nat) (ev : TrackEvent)
    (rest : List TrackEvent) (p : Nat) (hj : minPofiIdx st = some j)
    (hm : (st.getD j ⟨[], 0⟩).remaining = ev :: rest) :
    sizeOfMerges (st.set j ⟨rest, p⟩) < sizeOfMerges st := by
  have hjl := minPofiIdx_lt_length st j hj
  have h := sizeOfMerges_set st j ⟨rest, p⟩ hjl
  rw [hm] at h
  simp only [List.length_cons] at h
  omega

/-- The merge loop of `smf0` (its `while let Some(...) = ... min_by ...`
loop): repeatedly consume the earliest next event over all tracks,
emitting it with a delta relative to the last consumed-and-not-final
event, skipping EndOfTrack events, not advancing `pulse` when a track is
exhausted, and remembering the last computed delta for the final
EndOfTrack the caller appends. -/
def smfMergeGo (st : List TrackMerge) (pulse delta_last : Nat) : List TrackEvent × Nat :=
  match hj : minPofiIdx st with
  | none => ([], delta_last)
  | some j =>
    let m := st.getD j ⟨[], 0⟩
    match hm : m.remaining with
    | [] => ([], delta_last)
    | ev :: rest =>
      let dl := (m.pulse_of_i - pulse) % 2 ^ 28
      let next :=
        if hr : rest = [] then smfMergeGo (st.eraseIdx j) pulse dl
        else smfMergeGo (st.set j ⟨rest, m.pulse_of_i + (rest.headD defaultEvent).delta⟩)
          m.pulse_of_i dl
      if isEOT ev.kind then next else (⟨dl, ev.kind⟩ :: next.1, next.2)
termination_by sizeOfMerges st
decreasing_by
  · exact sizeOfMerges_dec_erase st j ev rest hj hm
  · exact sizeOfMerges_dec_set st j ev rest _ hj hm

/-- The initial merge state of `smf0`: empty tracks are dropped, each
remaining track starts at index 0 with `pulse_of_i` the delta of its
first event. -/
def initMerges (tracks : List (List TrackEvent)) : List TrackMerge :=
  tracks.filterMap fun track =>
    (track.head?).map fun ev => TrackMerge.mk track ev.delta

/-- The events `smf0` pushes into the flattened track (everything except
the final appended EndOfTrack). -/
def smf0_events (tracks : List (List TrackEvent)) : List TrackEvent :=
  (smfMergeGo (initMerges tracks) 0 0).1

/-- Mirrors the flattened track `smf0` writes for a multi-track file:
the merged events followed by one EndOfTrack carrying the last computed
delta. -/
def smf0_flatten (tracks : List (List TrackEvent)) : List TrackEvent :=
  smf0_events tracks ++ [⟨(smfMergeGo (initMerges tracks) 0 0).2, .meta .endOfTrack⟩]

/-- The multiset of (absolute firing pulse, kind) pairs of a track whose
deltas accumulate from `base`. -/
def firesFrom (base : Nat) : List TrackEvent → Multiset (Nat × TrackEventKind)
  | [] => 0
  | ev :: rest => {(base + ev.delta, ev.kind)} + firesFrom (base + ev.delta) rest

/-- The multiset of (absolute firing pulse, kind) pairs of the non-EndOfTrack
events of a source track. -/
def firesFromNonEOT (base : Nat) : List TrackEvent → Multiset (Nat × TrackEventKind)
  | [] => 0
  | ev :: rest =>
    (if isEOT ev.kind then 0 else {(base + ev.delta, ev.kind)}) + firesFromNonEOT (base + ev.delta) rest

/-- The multiset of (absolute firing pulse, kind) pairs of the
non-EndOfTrack events of a merge entry whose next event fires at `p`. -/
def remFires (p : Nat) : List TrackEvent → Multiset (Nat × TrackEventKind)
  | [] => 0
  | ev :: rest =>
    (if isEOT ev.kind then 0 else {(p, ev.kind)}) + remFires (p + (rest.headD defaultEvent).delta) rest

/-- Well-formedness of a source track: an event is an EndOfTrack exactly
when it is the last event of the track. -/
def wfTrack (t : List TrackEvent) : Prop :=
  ∀ i, i < t.length → (isEOT (t.getD i defaultEvent).kind ↔ i = t.length - 1)

instance (t : List TrackEvent) : Decidable (wfTrack t) := by
  unfold wfTrack; infer_instance

/-! ## Concrete inputs used by counterexamples and witnesses -/

/-- A NoteOn event on channel 0, key 60, velocity 100, delta 240. -/
def evN60 : TrackEvent := ⟨240, .midi 0 (.noteOn 60 100)⟩

/-- The S2 track of the specification: eight identical NoteOn events. -/
def track8 : List TrackEvent := List.replicate 8 evN60

/-- A pitch-bend event with delta 240 on channel 0. -/
def evBend1 : TrackEvent := ⟨240, .midi 0 (.pitchBend 1)⟩

/-- A four-event track whose length-2 candidate at cursor 2 passes the
structural rules but has differing endpoint channel state (the pitch
bend inside the body survives into `state_past`). -/
def trackNB : List TrackEvent := [evN60, evBend1, evN60, evBend1]

/-- A pitch-bend event with delta 240 and bend value 1000. -/
def evBendK : TrackEvent := ⟨240, .midi 0 (.pitchBend 1000)⟩

/-- A four-event track that starts with a pitch bend: the candidate at
(cursor 2, start 0) is accepted by the code because its `state_before`
has already absorbed the start event. -/
def trackBN : List TrackEvent := [evBendK, evN60, evBendK, evN60]

/-- A NoteOn with velocity 0 (semantically a note off). -/
def evN60off : TrackEvent := ⟨240, .midi 0 (.noteOn 60 0)⟩

/-- A NoteOn on key 62, velocity 100. -/
def evN62 : TrackEvent := ⟨240, .midi 0 (.noteOn 62 100)⟩

/-- A NoteOn on key 62, velocity 0. -/
def evN62off : TrackEvent := ⟨240, .midi 0 (.noteOn 62 0)⟩

/-- An eight-event track consisting of a non-periodic four-event pattern
played twice; the engine finds the length-4 loop at start 0. -/
def trackW : List TrackEvent := [evN60, evN60off, evN62, evN62off, evN60, evN60off, evN62, evN62off]

/-- A true NoteOff event (not a velocity-0 NoteOn). -/
def evOff60 : TrackEvent := ⟨0, .midi 0 (.noteOff 60 64)⟩

/-- A velocity-0 NoteOn with delta 0. -/
def evOn0 : TrackEvent := ⟨0, .midi 0 (.noteOn 60 0)⟩

/-- A body-scan accumulator with one active note on channel 0. -/
def accActive0 : BodyScanAcc :=
  ⟨MidiState.new, List.replicate 16 false, (List.replicate 16 0).set 0 1, []⟩

/-- A Tempo meta event with delta 0 (tempo 500000 µs per quarter). -/
def evTempo : TrackEvent := ⟨0, .meta (.tempo 500000)⟩

/-- Two-track input for the flattener witness. -/
def tracksAB : List (List TrackEvent) :=
  [[⟨100, .midi 0 (.noteOn 60 100)⟩, ⟨0, .meta .endOfTrack⟩],
   [⟨50, .midi 1 (.noteOn 62 100)⟩, ⟨100, .midi 1 (.noteOn 62 0)⟩, ⟨0, .meta .endOfTrack⟩]]

/-- The search loop as described by the specification text behind claim
C4, written for comparison with the implementation: here the state
compared as `state_before` at candidate start `s` is the replay of
`track[0..s)` only, excluding the start event itself, whereas
`find_loop_ending_at` has already absorbed `track[s]` into
`state_before` when it runs the checks. -/
def find_loop_ending_at_claimed (cursor earliest_start min_len : Nat) (track : List TrackEvent)
    (in_recording_space : Bool) : Option Loop :=
  ((List.range' earliest_start (cursor - min_len - earliest_start)).find? fun s =>
      acceptsFrom track cursor in_recording_space
        ((track.take s).foldl MidiState.update MidiState.new) s).map
    fun s => Loop.mk s (cursor - s)

/-! # Theorems

First the supporting lemmas about the engine, then one theorem (plus
witness or counterexample) per specification claim. -/

theorem MidiState.update_defaultEvent (s : MidiState) : s.update defaultEvent = s := rfl

theorem state_before_at_succ (track : List TrackEvent) (a : Nat) :
    state_before_at track a
      = MidiState.update ((track.take a).foldl MidiState.update MidiState.new)
          (track.getD a defaultEvent) := by
  unfold state_before_at
  by_cases ha : a < track.length
  · rw [List.take_succ]
    rw [List.foldl_append]
    have : track[a]? = some (track.getD a defaultEvent) := by
      rw [List.getElem?_eq_getElem ha]
      rw [List.getD_eq_getElem track defaultEvent ha]
    rw [this]
    rfl
  · push_neg at ha
    rw [List.take_of_length_le ha, List.take_of_length_le (le_trans ha (Nat.le_succ a))]
    rw [List.getD_eq_default track defaultEvent ha]
    rw [MidiState.update_defaultEvent]

theorem fleaGo_eq_find? (track : List TrackEvent) (cursor : Nat) (rs : Bool) :
    ∀ (n a : Nat),
      fleaGo track cursor rs ((track.take a).foldl MidiState.update MidiState.new)
          (List.range' a n)
        = ((List.range' a n).find? (accepts track cursor rs)).map fun s => Loop.mk s (cursor - s) := by
  intro n
  induction n with
  | zero => intro a; simp [fleaGo]
  | succ n ih =>
    intro a
    rw [List.range'_succ]
    show fleaGo track cursor rs ((track.take a).foldl MidiState.update MidiState.new)
        (a :: List.range' (a + 1) n) = _
    rw [List.find?_cons]
    have hun : fleaGo track cursor rs ((track.take a).foldl MidiState.update MidiState.new)
        (a :: List.range' (a + 1) n)
      = if acceptsFrom track cursor rs
            (((track.take a).foldl MidiState.update MidiState.new).update (track.getD a defaultEvent)) a
        then some ⟨a, cursor - a⟩
        else fleaGo track cursor rs
          (((track.take a).foldl MidiState.update MidiState.new).update (track.getD a defaultEvent))
          (List.range' (a + 1) n) := rfl
    rw [hun, ← state_before_at_succ track a]
    have hsb : state_before_at track a = (track.take (a + 1)).foldl MidiState.update MidiState.new := rfl
    have hacc : acceptsFrom track cursor rs (state_before_at track a) a = accepts track cursor rs a := rfl
    rw [hacc]
    by_cases h : accepts track cursor rs a
    · rw [if_pos h, h]
      rfl
    · rw [if_neg (by simp [h]), hsb, ih (a + 1)]
      have h' : accepts track cursor rs a = false := by simp [h]
      rw [h']

theorem find_loop_ending_at_eq (cursor earliest_start min_len : Nat) (track : List TrackEvent)
    (rs : Bool) :
    find_loop_ending_at cursor earliest_start min_len track rs
      = ((List.range' earliest_start (cursor - min_len - earliest_start)).find?
            (accepts track cursor rs)).map fun s => Loop.mk s (cursor - s) := by
  unfold find_loop_ending_at
  exact fleaGo_eq_find? track cursor rs _ earliest_start

/-! ### The total order behind the parallel reduction -/

theorem better_than_irrefl (a : Loop) : a.better_than a = false := by
  simp [Loop.better_than]

theorem better_than_total (a b : Loop) :
    a = b ∨ a.better_than b = true ∨ b.better_than a = true := by
  obtain ⟨sa, la⟩ := a
  obtain ⟨sb, lb⟩ := b
  simp only [Loop.better_than, Bool.or_eq_true, Bool.and_eq_true, decide_eq_true_eq,
    Loop.mk.injEq]
  omega

theorem better_than_asymm (a b : Loop) (h : a.better_than b = true) :
    b.better_than a = false := by
  obtain ⟨sa, la⟩ := a
  obtain ⟨sb, lb⟩ := b
  simp only [Loop.better_than, Bool.or_eq_true, Bool.and_eq_true, decide_eq_true_eq,
    Bool.or_eq_false_iff, Bool.and_eq_false_iff, decide_eq_false_iff_not, not_lt] at *
  omega

theorem comb_self (a : Loop) : comb a a = a := by
  simp [comb]

theorem comb_comm (a b : Loop) : comb a b = comb b a := by
  rcases better_than_total a b with h | h | h
  · rw [h]
  · rw [comb, if_pos h, comb, if_neg (by simp [better_than_asymm a b h])]
  · rw [comb, if_neg (by simp [better_than_asymm b a h]), comb, if_pos h]

theorem comb_assoc (a b c : Loop) : comb (comb a b) c = comb a (comb b c) := by
  obtain ⟨sa, la⟩ := a
  obtain ⟨sb, lb⟩ := b
  obtain ⟨sc, lc⟩ := c
  simp only [comb, Loop.better_than, Bool.or_eq_true, Bool.and_eq_true, decide_eq_true_eq]
  split_ifs <;> simp_all only [Loop.mk.injEq] <;> omega

theorem comb_right_comm (z a b : Loop) : comb (comb z a) b = comb (comb z b) a := by
  rw [comb_assoc, comb_assoc, comb_comm a b]

theorem comb_cases (a b : Loop) : comb a b = a ∨ comb a b = b := by
  rw [comb]
  split_ifs <;> simp

/-- A value the reduction can see: the default loop or a loop of
positive length. `comb` has the default loop as identity on these. -/
theorem comb_default_left (b : Loop) (hb : b = ⟨0, 0⟩ ∨ 0 < b.len) :
    comb ⟨0, 0⟩ b = b := by
  rcases hb with hb | hb
  · rw [hb, comb_self]
  · rw [comb, if_neg]
    simp only [Loop.better_than, Bool.or_eq_true, Bool.and_eq_true, decide_eq_true_eq]
    omega

theorem comb_default_right (a : Loop) (ha : a = ⟨0, 0⟩ ∨ 0 < a.len) : comb a ⟨0, 0⟩ = a := by
  rcases ha with ha | ha
  · rw [ha, comb_self]
  · rw [comb, if_pos]
    obtain ⟨sa, la⟩ := a
    simp only [Loop.better_than, Bool.or_eq_true, Bool.and_eq_true, decide_eq_true_eq]
    left
    simpa using ha

/-! ### Locating the first accepted start -/

theorem find?_range'_some_iff (p : Nat → Bool) :
    ∀ (n a s : Nat),
      ((List.range' a n).find? p = some s ↔
        p s = true ∧ a ≤ s ∧ s < a + n ∧ ∀ j, a ≤ j → j < s → p j = false) := by
  intro n
  induction n with
  | zero =>
    intro a s
    rw [show List.range' a 0 = [] from rfl]
    simp only [List.find?_nil]
    constructor
    · intro h; exact absurd h (by simp)
    · rintro ⟨_, h2, h3, _⟩; omega
  | succ n ih =>
    intro a s
    rw [List.range'_succ, List.find?_cons]
    by_cases hpa : p a
    · rw [hpa]
      constructor
      · intro h
        cases h
        exact ⟨hpa, le_refl a, by omega, fun j h1 h2 => absurd h1 (by omega)⟩
      · rintro ⟨hps, has, _, hmin⟩
        rcases Nat.eq_or_lt_of_le has with h | h
        · rw [h]
        · exact absurd (hmin a (le_refl a) h) (by simp [hpa])
    · have hpa' : p a = false := by simp [hpa]
      rw [hpa']
      rw [ih (a + 1) s]
      constructor
      · rintro ⟨hps, has, hsn, hmin⟩
        refine ⟨hps, by omega, by omega, fun j h1 h2 => ?_⟩
        rcases Nat.eq_or_lt_of_le h1 with h | h
        · rw [← h]; exact hpa'
        · exact hmin j h h2
      · rintro ⟨hps, has, hsn, hmin⟩
        have : a ≠ s := fun h => by rw [← h] at hps; simp [hpa] at hps
        exact ⟨hps, by omega, by omega, fun j h1 h2 => hmin j (by omega) h2⟩

theorem find?_range_some_iff (p : Nat → Bool) (n s : Nat) :
    ((List.range n).find? p = some s ↔
      p s = true ∧ s < n ∧ ∀ j, j < s → p j = false) := by
  rw [List.range_eq_range', find?_range'_some_iff]
  constructor
  · rintro ⟨h1, _, h3, h4⟩
    exact ⟨h1, by omega, fun j hj => h4 j (by omega) hj⟩
  · rintro ⟨h1, h2, h3⟩
    exact ⟨h1, by omega, by omega, fun j _ hj => h3 j hj⟩

theorem find?_range_none_iff (p : Nat → Bool) (n : Nat) :
    ((List.range n).find? p = none ↔ ∀ j, j < n → p j = false) := by
  rw [List.find?_eq_none]
  constructor
  · intro h j hj
    have := h j (by simp [List.mem_range, hj])
    simp [this]
  · intro h x hx
    simp only [List.mem_range] at hx
    simp [h x hx]

/-! ### Consequences of acceptance -/

theorem accepts_cursor_lt (track : List TrackEvent) (c : Nat) (rs : Bool) (s : Nat)
    (h : accepts track c rs s = true) : s < track.length ∧ c < track.length := by
  have hbase : base_rules track c s = true := by
    simp only [accepts, acceptsFrom, Bool.and_eq_true] at h
    exact h.1.1.1
  simp only [base_rules, Bool.and_eq_true, Bool.not_eq_true', Bool.or_eq_false_iff,
    beq_eq_false_iff_ne, ne_eq] at hbase
  constructor
  · by_contra hs
    push_neg at hs
    have : track.getD s defaultEvent = defaultEvent := List.getD_eq_default track defaultEvent hs
    exact hbase.1.1.1.1 (by rw [this]; rfl)
  · by_contra hc
    push_neg at hc
    have : track.getD c defaultEvent = defaultEvent := List.getD_eq_default track defaultEvent hc
    exact hbase.1.1.1.2 (by rw [this]; rfl)

theorem accepts_ranges_eq (track : List TrackEvent) (c : Nat) (rs : Bool) (s : Nat)
    (h : accepts track c rs s = true) (hs : s < c) :
    s + 2 * (c - s) ≤ track.length ∧
      (track.drop s).take (c - s) = (track.drop (s + (c - s))).take (c - s) := by
  obtain ⟨hsl, hcl⟩ := accepts_cursor_lt track c rs s h
  have hbase : base_rules track c s = true := by
    simp only [accepts, acceptsFrom, Bool.and_eq_true] at h
    exact h.1.1.1
  simp only [base_rules, Bool.and_eq_true, beq_iff_eq] at hbase
  have hranges : (track.drop s).take (c - s) = (track.drop c).take (c - s) := hbase.2
  have hsc : s + (c - s) = c := by omega
  have hlen : ((track.drop s).take (c - s)).length = ((track.drop c).take (c - s)).length := by
    rw [hranges]
  have h1 : ((track.drop s).take (c - s)).length = c - s := by
    simp only [List.length_take, List.length_drop]
    omega
  have h2 : ((track.drop c).take (c - s)).length = min (c - s) (track.length - c) := by
    simp only [List.length_take, List.length_drop]
  constructor
  · rw [h1, h2] at hlen
    omega
  · rw [hsc]
    exact hranges

/-- The per-cursor step: either the accumulator survives, or a start
accepted at this cursor and strictly below `cursor - acc.len` is
reported. -/
theorem loop_step_found_or_same (track : List TrackEvent) (acc : Loop) (c : Nat) :
    loop_step track acc c = acc ∨
      ∃ s, accepts track c false s = true ∧ s < c - acc.len ∧
        loop_step track acc c = ⟨s, c - s⟩ := by
  unfold loop_step
  rw [find_loop_ending_at_eq]
  cases hf : (List.range' 0 (c - acc.len - 0)).find? (accepts track c false) with
  | none => left; rfl
  | some s =>
    right
    have hchar := (find?_range'_some_iff (accepts track c false) (c - acc.len - 0) 0 s).mp hf
    exact ⟨s, hchar.1, by omega, rfl⟩

theorem cursor_best_some_iff (track : List TrackEvent) (c s : Nat) :
    cursor_best track c = some s ↔
      accepts track c false s = true ∧ s < c ∧ ∀ j, j < s → accepts track c false j = false := by
  unfold cursor_best
  rw [find?_range_some_iff]

theorem cursor_best_loop_good (track : List TrackEvent) (c : Nat) :
    cursor_best_loop track c = ⟨0, 0⟩ ∨ 0 < (cursor_best_loop track c).len := by
  unfold cursor_best_loop
  cases hcb : cursor_best track c with
  | none => left; rfl
  | some s =>
    right
    have := (cursor_best_some_iff track c s).mp hcb
    simp only
    omega

/-- One cursor of the fold acts like taking the `better_than` maximum of
the accumulator and the loop this cursor reports under a full-range
search: searching only starts below `cursor - min_len` never loses a
loop that matters, because a skipped loop is dominated. -/
theorem loop_step_eq_comb (track : List TrackEvent) (acc : Loop) (c : Nat)
    (hgood : acc = ⟨0, 0⟩ ∨
      ∃ c0 s0, c0 < c ∧ cursor_best track c0 = some s0 ∧ acc = ⟨s0, c0 - s0⟩) :
    loop_step track acc c = comb acc (cursor_best_loop track c) ∧
      (loop_step track acc c = acc ∨
        ∃ s, cursor_best track c = some s ∧ loop_step track acc c = ⟨s, c - s⟩) := by
  have hacclen : acc = ⟨0, 0⟩ ∨ (0 < acc.len ∧ acc.start + acc.len < c) := by
    rcases hgood with h | ⟨c0, s0, hc0, hcb, hacc⟩
    · left; exact h
    · right
      have := (cursor_best_some_iff track c0 s0).mp hcb
      rw [hacc]
      simp only
      omega
  have hgood2 : acc = ⟨0, 0⟩ ∨ 0 < acc.len := by
    rcases hacclen with h | h
    · left; exact h
    · right; exact h.1
  unfold loop_step
  rw [find_loop_ending_at_eq]
  cases hcb : cursor_best track c with
  | none =>
    have hnone : ∀ j, j < c → accepts track c false j = false :=
      (find?_range_none_iff (accepts track c false) c).mp hcb
    have hres : (List.range' 0 (c - acc.len - 0)).find? (accepts track c false) = none := by
      rw [List.find?_eq_none]
      intro x hx
      rw [List.mem_range'_1] at hx
      simp [hnone x (by omega)]
    rw [hres]
    have hbl : cursor_best_loop track c = ⟨0, 0⟩ := by
      unfold cursor_best_loop
      rw [hcb]
    rw [hbl, comb_default_right acc hgood2]
    exact ⟨rfl, Or.inl rfl⟩
  | some s1 =>
    obtain ⟨hp1, hs1c, hmin1⟩ := (cursor_best_some_iff track c s1).mp hcb
    have hbl : cursor_best_loop track c = ⟨s1, c - s1⟩ := by
      unfold cursor_best_loop
      rw [hcb]
    rw [hbl]
    by_cases hlt : s1 < c - acc.len
    · have hres : (List.range' 0 (c - acc.len - 0)).find? (accepts track c false) = some s1 := by
        rw [find?_range'_some_iff]
        exact ⟨hp1, by omega, by omega, fun j _ hj => hmin1 j hj⟩
      rw [hres]
      have hcomb : comb acc ⟨s1, c - s1⟩ = ⟨s1, c - s1⟩ := by
        rw [comb, if_neg]
        obtain ⟨sa, la⟩ := acc
        simp only at hlt
        simp only [Loop.better_than, Bool.or_eq_true, Bool.and_eq_true, decide_eq_true_eq]
        push_neg
        exact ⟨by omega, fun h2 => by omega⟩
      rw [hcomb]
      exact ⟨rfl, Or.inr ⟨s1, rfl, rfl⟩⟩
    · have hres : (List.range' 0 (c - acc.len - 0)).find? (accepts track c false) = none := by
        rw [List.find?_eq_none]
        intro x hx
        rw [List.mem_range'_1] at hx
        simp [hmin1 x (by omega)]
      rw [hres]
      have hcomb : comb acc ⟨s1, c - s1⟩ = acc := by
        rw [comb, if_pos]
        rcases hacclen with h0 | ⟨hpos, hbound⟩
        · exfalso
          rw [h0] at hlt
          simp only at hlt
          omega
        · obtain ⟨sa, la⟩ := acc
          simp only at hpos hbound hlt
          simp only [Loop.better_than, Bool.or_eq_true, Bool.and_eq_true, decide_eq_true_eq]
          omega
      rw [hcomb]
      exact ⟨rfl, Or.inl rfl⟩

/-- A worker's fold over an ascending chunk of cursors computes the
`better_than` maximum of the full-range per-cursor results. -/
theorem worker_fold_eq_sup (track : List TrackEvent) :
    ∀ (C : List Nat) (acc : Loop), C.Pairwise (· < ·) →
      (acc = ⟨0, 0⟩ ∨
        ∃ c0 s0, (∀ c ∈ C, c0 < c) ∧ cursor_best track c0 = some s0 ∧ acc = ⟨s0, c0 - s0⟩) →
      C.foldl (loop_step track) acc = (C.map (cursor_best_loop track)).foldl comb acc := by
  intro C
  induction C with
  | nil => intro acc _ _; rfl
  | cons c C' ih =>
    intro acc hpair hgood
    obtain ⟨hhead, hpair'⟩ := List.pairwise_cons.mp hpair
    have hgoodc : acc = ⟨0, 0⟩ ∨
        ∃ c0 s0, c0 < c ∧ cursor_best track c0 = some s0 ∧ acc = ⟨s0, c0 - s0⟩ := by
      rcases hgood with h | ⟨c0, s0, hall, hcb, hacc⟩
      · left; exact h
      · right; exact ⟨c0, s0, hall c (List.mem_cons_self c C'), hcb, hacc⟩
    obtain ⟨hstep, hpost⟩ := loop_step_eq_comb track acc c hgoodc
    simp only [List.foldl_cons, List.map_cons]
    rw [ih (loop_step track acc c) hpair' ?inv, hstep]
    case inv =>
      rcases hpost with hsame | ⟨s, hcbs, heq⟩
      · rw [hsame]
        rcases hgood with h | ⟨c0, s0, hall, hcb, hacc⟩
        · left; exact h
        · right
          exact ⟨c0, s0, fun x hx => hall x (List.mem_cons_of_mem c hx), hcb, hacc⟩
      · right
        exact ⟨c, s, fun x hx => hhead x hx, hcbs, heq⟩

theorem worker_fold_eq (track : List TrackEvent) (C : List Nat) (h : C.Pairwise (· < ·)) :
    worker_fold track C = (C.map (cursor_best_loop track)).foldl comb ⟨0, 0⟩ :=
  worker_fold_eq_sup track C ⟨0, 0⟩ h (Or.inl rfl)

/-! ### Associativity bookkeeping for the parallel reduction -/

theorem comb_good (a b : Loop) (ha : a = ⟨0, 0⟩ ∨ 0 < a.len) (hb : b = ⟨0, 0⟩ ∨ 0 < b.len) :
    comb a b = ⟨0, 0⟩ ∨ 0 < (comb a b).len := by
  rcases comb_cases a b with h | h <;> rw [h]
  · exact ha
  · exact hb

theorem foldl_comb_good (l : List Loop) :
    ∀ (a : Loop), (a = ⟨0, 0⟩ ∨ 0 < a.len) → (∀ x ∈ l, x = ⟨0, 0⟩ ∨ 0 < x.len) →
      l.foldl comb a = ⟨0, 0⟩ ∨ 0 < (l.foldl comb a).len := by
  induction l with
  | nil => intro a ha _; exact ha
  | cons x l ih =>
    intro a ha hl
    simp only [List.foldl_cons]
    exact ih (comb a x) (comb_good a x ha (hl x (List.mem_cons_self x l)))
      fun y hy => hl y (List.mem_cons_of_mem x hy)

theorem foldl_comb_hoist (l : List Loop) :
    ∀ (a : Loop), (a = ⟨0, 0⟩ ∨ 0 < a.len) → (∀ x ∈ l, x = ⟨0, 0⟩ ∨ 0 < x.len) →
      l.foldl comb a = comb a (l.foldl comb ⟨0, 0⟩) := by
  induction l with
  | nil => intro a ha _; exact (comb_default_right a ha).symm
  | cons x l ih =>
    intro a ha hl
    have hx := hl x (List.mem_cons_self x l)
    have hl' := fun y hy => hl y (List.mem_cons_of_mem x hy)
    simp only [List.foldl_cons]
    rw [ih (comb a x) (comb_good a x ha hx) hl', comb_assoc, comb_default_left x hx,
      ih x hx hl']

theorem foldl_comb_map_join (L : List (List Loop)) :
    ∀ (a : Loop), (a = ⟨0, 0⟩ ∨ 0 < a.len) → (∀ l ∈ L, ∀ x ∈ l, x = ⟨0, 0⟩ ∨ 0 < x.len) →
      (L.map fun l => l.foldl comb ⟨0, 0⟩).foldl comb a = L.flatten.foldl comb a := by
  induction L with
  | nil => intro a _ _; rfl
  | cons l L' ih =>
    intro a ha hL
    have hl := hL l (List.mem_cons_self l L')
    have hL' := fun m hm => hL m (List.mem_cons_of_mem l hm)
    simp only [List.map_cons, List.foldl_cons, List.flatten_cons]
    rw [List.foldl_append]
    rw [ih (comb a (l.foldl comb ⟨0, 0⟩))
      (comb_good _ _ ha (foldl_comb_good l ⟨0, 0⟩ (Or.inl rfl) hl)) hL']
    rw [foldl_comb_hoist l a ha hl]

theorem find_fold_invariant (track : List TrackEvent) :
    ∀ (C : List Nat) (acc : Loop),
      (acc.len = 0 ∨ ∃ c s, accepts track c false s = true ∧ s < c ∧ acc = ⟨s, c - s⟩) →
      ((C.foldl (loop_step track) acc).len = 0 ∨
        ∃ c s, accepts track c false s = true ∧ s < c ∧
          C.foldl (loop_step track) acc = ⟨s, c - s⟩) := by
  intro C
  induction C with
  | nil => intro acc h; exact h
  | cons c C' ih =>
    intro acc h
    simp only [List.foldl_cons]
    apply ih
    rcases loop_step_found_or_same track acc c with hsame | ⟨s, hacc, hs, heq⟩
    · rw [hsame]; exact h
    · right
      exact ⟨c, s, hacc, by omega, heq⟩

/-- C1: any loop returned by the note-space search either has length 0,
or fits twice into the track with its body structurally equal,
element-wise and including deltas, to the immediately following range of
the same length. -/
theorem find_note_loop_sound (track : List TrackEvent) :
    (find_note_loop track).len = 0 ∨
      ((find_note_loop track).start + 2 * (find_note_loop track).len ≤ track.length ∧
        (track.drop (find_note_loop track).start).take (find_note_loop track).len
          = (track.drop ((find_note_loop track).start + (find_note_loop track).len)).take
              (find_note_loop track).len) := by
  have h := find_fold_invariant track (List.range track.length) ⟨0, 0⟩ (Or.inl rfl)
  have hW : find_note_loop track = (List.range track.length).foldl (loop_step track) ⟨0, 0⟩ := rfl
  rcases h with h0 | ⟨c, s, hacc, hsc, heq⟩
  · left; rw [hW]; exact h0
  · right
    obtain ⟨hbound, hranges⟩ := accepts_ranges_eq track c false s hacc hsc
    rw [hW, heq]
    simp only
    exact ⟨by omega, hranges⟩

/-- C6: for a fixed track, the note-space search is deterministic under
parallelism: for every partition of the cursor range into ascending
chunks, in any order, folding each chunk with a fresh accumulator and
reducing the per-chunk results with `better_than` yields exactly the
sequential left-to-right fold over all cursors, because `better_than`
induces a total order and any loop skipped due to a larger `min_len` is
dominated under that order. -/
theorem find_parallel_eq_sequential (track : List TrackEvent) (parts : List (List Nat))
    (hsort : ∀ C ∈ parts, C.Pairwise (· < ·))
    (hperm : parts.flatten.Perm (List.range track.length)) :
    reduce_loops (parts.map (worker_fold track)) = find_note_loop track := by
  have hmapworker : parts.map (worker_fold track)
      = (parts.map (List.map (cursor_best_loop track))).map fun l => l.foldl comb ⟨0, 0⟩ := by
    rw [List.map_map]
    apply List.map_congr_left
    intro C hC
    exact worker_fold_eq track C (hsort C hC)
  unfold reduce_loops
  rw [hmapworker]
  rw [foldl_comb_map_join _ _ (Or.inl rfl) ?goods]
  case goods =>
    intro l hl x hx
    simp only [List.mem_map] at hl
    obtain ⟨C, hC, rfl⟩ := hl
    simp only [List.mem_map] at hx
    obtain ⟨c, hc, rfl⟩ := hx
    exact cursor_best_loop_good track c
  rw [← List.map_flatten]
  have hperm2 := hperm.map (cursor_best_loop track)
  rw [hperm2.foldl_eq' (fun x _ y _ z => comb_right_comm z x y) ⟨0, 0⟩]
  rw [← worker_fold_eq track (List.range track.length) (List.pairwise_lt_range track.length)]
  rfl

/-- Witness for C6: splitting the cursors of the eight-event track into
odd and even chunks and reducing gives the sequential result. -/
theorem find_parallel_eq_sequential_witness :
    reduce_loops (([[0, 2, 4, 6], [1, 3, 5, 7]] : List (List Nat)).map (worker_fold track8))
      = find_note_loop track8 :=
  find_parallel_eq_sequential track8 [[0, 2, 4, 6], [1, 3, 5, 7]] (by decide) (by decide)

theorem worker_prefix_len_le (track : List TrackEvent) :
    ∀ c, (worker_fold track (List.range c)).len ≤ c := by
  intro c
  induction c with
  | zero => exact Nat.le_refl 0
  | succ c ih =>
    show (worker_fold track (List.range (c + 1))).len ≤ c + 1
    unfold worker_fold
    rw [List.range_succ, List.foldl_append]
    simp only [List.foldl_cons, List.foldl_nil]
    have hW : (List.range c).foldl (loop_step track) ⟨0, 0⟩ = worker_fold track (List.range c) := rfl
    rw [hW]
    rcases loop_step_found_or_same track (worker_fold track (List.range c)) c
      with hsame | ⟨s, _, hs, heq⟩
    · rw [hsame]; omega
    · rw [heq]; simp only; omega

/-- C10: every `find_loop_ending_at` call issued by `find` is safe. In
the sequential note-space fold the `min_len` argument at cursor `c` is
the length of the loop accumulated over cursors `0..c`, and it never
exceeds `c`, so the start range `0..(c - min_len)` cannot underflow and
every index the call reads (the cursor itself and every candidate start)
is strictly inside the track; the recording-space calls use
`min_len = 0 ≤ cursor` and their starts lie below the cursor as well. -/
theorem find_search_in_bounds (track : List TrackEvent) :
    (∀ c, c < track.length →
      (worker_fold track (List.range c)).len ≤ c ∧ c < track.length ∧
        ∀ s, s < c - (worker_fold track (List.range c)).len → s < track.length) ∧
    (∀ (nl : Loop) (cursor : Nat), cursor < track.length →
      0 ≤ cursor ∧ ∀ s, nl.start ≤ s → s < cursor - 0 → s < track.length) := by
  constructor
  · intro c hc
    refine ⟨worker_prefix_len_le track c, hc, fun s hs => ?_⟩
    omega
  · intro nl cursor hcursor
    exact ⟨Nat.zero_le cursor, fun s _ hs => by omega⟩

/-- Witness for C10: the bounds at cursor 5 of the eight-event track,
and a recording-space call pinned at the found loop. -/
theorem find_search_in_bounds_witness :
    (worker_fold track8 (List.range 5)).len ≤ 5 ∧ (5 : Nat) < track8.length ∧
      ∀ s, s < 5 - (worker_fold track8 (List.range 5)).len → s < track8.length :=
  (find_search_in_bounds track8).1 5 (by decide)

/-- Counterexample to C2 as stated: on `trackNB` the candidate
(start 0, len 2) at cursor 2 passes the pulse-boundary rule, the
no-program-change rule, structural equality of the ranges and the
self-similarity rule, yet the note-space search ending at cursor 2
returns no loop, because the endpoint-state test also runs outside
recording space and fails here (the pitch bend inside the body changes
the channel state). -/
theorem note_space_state_test_counterexample :
    base_rules trackNB 2 0 = true ∧
      loop_contains_itself trackNB ⟨0, 2⟩ = false ∧
      find_loop_ending_at 2 0 0 trackNB false = none := by decide

/-- C2 amended: the redundant-CC override and the
`state_before == state_past` test run in both search spaces — a
candidate failing the endpoint-state test is not accepted even in note
space — and the only test exclusive to `in_recording_space` is the
active-note channel-state test: when it passes, both spaces decide the
candidate identically. -/
theorem state_test_runs_in_both_spaces (track : List TrackEvent) (cursor s : Nat) :
    (state_matches track cursor s = false →
      ∀ rs, accepts track cursor rs s = false) ∧
    (active_ok track cursor s = true →
      accepts track cursor true s = accepts track cursor false s) := by
  constructor
  · intro hsm rs
    unfold state_matches at hsm
    simp [accepts, acceptsFrom, hsm]
  · intro hok
    unfold active_ok at hok
    simp [accepts, acceptsFrom, hok]

/-- Witness for C2's amended claim: a concrete candidate rejected by the
state test in note space, and a concrete candidate decided identically
in both spaces. -/
theorem state_test_runs_in_both_spaces_witness :
    (∀ rs, accepts trackNB 2 rs 0 = false) ∧
      accepts track8 3 true 0 = accepts track8 3 false 0 :=
  ⟨(state_test_runs_in_both_spaces trackNB 2 0).1 (by decide),
   (state_test_runs_in_both_spaces track8 3 0).2 (by decide)⟩

/-- Counterexample to C4 as stated: on `trackBN` (whose candidate start
event is a pitch bend) the recording-space check at cursor 2 accepts
start 0, but under the claim's states — `state_before` excluding the
start event — the same candidate is rejected, so the two disagree. -/
theorem state_before_excludes_start_counterexample :
    find_loop_ending_at 2 0 0 trackBN true = some ⟨0, 2⟩ ∧
      find_loop_ending_at_claimed 2 0 0 trackBN true = none := by decide

/-- C4 amended: when the endpoint-state comparison is evaluated for a
candidate start `s`, `state_before` is the replay of exactly the first
`s + 1` events `track[0..=s]` — including the start event — and
`state_past` continues that state through the body `track[s..s+len)`
(so the start event is applied to it twice): the search equals the first
start accepted by the checks evaluated at exactly that replayed state. -/
theorem find_loop_state_replay (cursor earliest_start min_len : Nat) (track : List TrackEvent)
    (rs : Bool) :
    find_loop_ending_at cursor earliest_start min_len track rs
      = ((List.range' earliest_start (cursor - min_len - earliest_start)).find? fun s =>
            acceptsFrom track cursor rs
              ((track.take (s + 1)).foldl MidiState.update MidiState.new) s).map
          fun s => Loop.mk s (cursor - s) :=
  find_loop_ending_at_eq cursor earliest_start min_len track rs

/-- Counterexample to C5 as stated: a NoteOff event does not decrement
`notes_active_on` (the inspector `note` only reports NoteOn events), and
a velocity-0 NoteOn does not set `played_a_note` (the flag is set only
in the `is_on` branch). -/
theorem body_scan_step_counterexample :
    ¬ ((bodyScanStep accActive0 evOff60).notes_active_on.getD 0 0 = 0) ∧
      ¬ ((bodyScanStep (scanInit MidiState.new) evOn0).played_a_note.getD 0 false = true) := by
  decide

/-- C5 amended: during the body replay, `played_a_note[ch]` is set only
by a NoteOn with positive velocity on `ch`, which also increments
`notes_active_on[ch]`; a NoteOn with velocity 0 decrements the counter
but never below zero and leaves the flag alone; and NoteOff events leave
both the flag and the counter untouched. -/
theorem body_scan_step_cases (acc : BodyScanAcc) (delta ch key vel : Nat) :
    (0 < vel →
      bodyScanStep acc ⟨delta, .midi ch (.noteOn key vel)⟩
        = { acc with
            state_past := acc.state_past.update ⟨delta, .midi ch (.noteOn key vel)⟩
            played_a_note := acc.played_a_note.set ch true
            notes_active_on :=
              acc.notes_active_on.set ch (acc.notes_active_on.getD ch 0 + 1) }) ∧
    (bodyScanStep acc ⟨delta, .midi ch (.noteOn key 0)⟩
        = { acc with
            state_past := acc.state_past.update ⟨delta, .midi ch (.noteOn key 0)⟩
            notes_active_on :=
              if 0 < acc.notes_active_on.getD ch 0 then
                acc.notes_active_on.set ch (acc.notes_active_on.getD ch 0 - 1)
              else acc.notes_active_on }) ∧
    (bodyScanStep acc ⟨delta, .midi ch (.noteOff key vel)⟩).played_a_note = acc.played_a_note ∧
    (bodyScanStep acc ⟨delta, .midi ch (.noteOff key vel)⟩).notes_active_on
      = acc.notes_active_on := by
  refine ⟨fun hvel => ?_, ?_, ?_, ?_⟩
  · simp [bodyScanStep, note, controller, Note.is_on, hvel]
  · simp only [bodyScanStep, note, controller, Note.is_on]
    simp
    split_ifs <;> rfl
  · simp [bodyScanStep, note, controller]
  · simp [bodyScanStep, note, controller]

/-- Witness for C5's amended claim: one NoteOn with positive velocity
applied to a fresh accumulator. -/
theorem body_scan_step_cases_witness :
    bodyScanStep (scanInit MidiState.new) ⟨240, .midi 0 (.noteOn 60 100)⟩
      = { scanInit MidiState.new with
          state_past := (scanInit MidiState.new).state_past.update ⟨240, .midi 0 (.noteOn 60 100)⟩
          played_a_note := (scanInit MidiState.new).played_a_note.set 0 true
          notes_active_on :=
            (scanInit MidiState.new).notes_active_on.set 0
              ((scanInit MidiState.new).notes_active_on.getD 0 0 + 1) } :=
  (body_scan_step_cases (scanInit MidiState.new) 240 0 60 100).1 (by decide)

set_option maxRecDepth 4000 in
/-- Counterexample to C3 as stated: on the track of eight identical
events the search does not return Loop{0,0}; it returns Loop{0,3}, and
that loop's three-event body decomposes into k = 3 equal sub-ranges of
length 1. -/
theorem self_similarity_counterexample :
    find_note_loop track8 = ⟨0, 3⟩ ∧
      3 ∣ (find_note_loop track8).len ∧
      ((List.range' 1 2).all fun i =>
        (track8.drop (find_note_loop track8).start).take 1
          == ((track8.drop (find_note_loop track8).start).drop (i * 1)).take 1) = true := by
  decide

/-- C3 amended: the self-similarity rule tests only the divisors k of
the body length with 2 ≤ k ≤ len / 2, so no returned loop decomposes
into k equal sub-ranges for such k; a body that is periodic only with
more than len / 2 parts (such as a prime number of identical events) can
still be returned, as Loop{0,3} on the eight-identical-event track. -/
theorem find_note_loop_not_self_similar (track : List TrackEvent) (k : Nat)
    (h2 : 2 ≤ k) (hhalf : k ≤ (find_note_loop track).len / 2)
    (hdvd : k ∣ (find_note_loop track).len) :
    ¬ (((List.range' 1 (k - 1)).all fun i =>
        (track.drop (find_note_loop track).start).take ((find_note_loop track).len / k)
          == ((track.drop (find_note_loop track).start).drop
                (i * ((find_note_loop track).len / k))).take
              ((find_note_loop track).len / k)) = true) := by
  rcases find_fold_invariant track (List.range track.length) ⟨0, 0⟩ (Or.inl rfl)
    with h0 | ⟨c, s, hacc, hsc, heq⟩
  · have hz : (find_note_loop track).len = 0 := h0
    rw [hz] at hhalf
    omega
  · have heq' : find_note_loop track = ⟨s, c - s⟩ := heq
    have hlci : loop_contains_itself track ⟨s, c - s⟩ = false := by
      have h := hacc
      simp only [accepts, acceptsFrom, Bool.and_eq_true, Bool.not_eq_true'] at h
      exact h.2
    rw [heq'] at hhalf hdvd ⊢
    simp only at hhalf hdvd ⊢
    intro hall
    have hmem : k ∈ (List.range' 2 ((c - s) / 2 + 1 - 2)).filter
        fun x => (c - s) % x == 0 := by
      rw [List.mem_filter]
      constructor
      · rw [List.mem_range'_1]
        omega
      · simp only [beq_iff_eq]
        obtain ⟨t, ht⟩ := hdvd
        rw [ht]
        exact Nat.mul_mod_right k t
    have htrue : loop_contains_itself track ⟨s, c - s⟩ = true := by
      unfold loop_contains_itself
      rw [List.any_eq_true]
      exact ⟨k, hmem, hall⟩
    rw [htrue] at hlci
    cases hlci

/-- Witness for C3's amended claim: the loop Loop{0,4} found on the
twice-played four-event pattern has no 2-fold decomposition. -/
theorem find_note_loop_not_self_similar_witness :
    ¬ (((List.range' 1 (2 - 1)).all fun i =>
        (trackW.drop (find_note_loop trackW).start).take ((find_note_loop trackW).len / 2)
          == ((trackW.drop (find_note_loop trackW).start).drop
                (i * ((find_note_loop trackW).len / 2))).take
              ((find_note_loop trackW).len / 2)) = true) :=
  find_note_loop_not_self_similar trackW 2 (by decide) (by decide) (by decide)

/-! ### Timekeeping -/

theorem midiTime_add_qn (T : MidiTime) (e : TrackEvent) :
    (isTempoEvent e = false → (T.add e).qn_duration = T.qn_duration) ∧
      (isTempoEvent e = true → ((T.add e).qn_duration).isSome = true) := by
  obtain ⟨d, k⟩ := e
  cases k with
  | midi ch msg => simp [MidiTime.add, isTempoEvent]
  | sysEx data => simp [MidiTime.add, isTempoEvent]
  | escape data => simp [MidiTime.add, isTempoEvent]
  | meta m => cases m <;> simp [MidiTime.add, isTempoEvent]

theorem midiTime_add_realtime_isSome (T : MidiTime) (e : TrackEvent) :
    ((T.add e).realtime).isSome =
      (T.qn_duration.isSome && (T.realtime.isSome || (T.pulse + e.delta == 0))) := by
  rcases hq : T.qn_duration with _ | q <;>
    simp only [MidiTime.add, hq, Option.filter] <;>
    by_cases hc : (T.realtime.isSome || (T.pulse + e.delta == 0)) = true <;>
    simp [hc]

theorem midiTime_pulse (ppqn : Nat) (sr : Option Nat) (l : List TrackEvent) :
    (l.foldl MidiTime.add (midiTimeStart ppqn sr)).pulse = (l.map TrackEvent.delta).sum := by
  induction l using List.reverseRecOn with
  | nil => rfl
  | append_singleton l e ih =>
    rw [List.foldl_append]
    simp only [List.foldl_cons, List.foldl_nil, List.map_append, List.sum_append]
    simp [MidiTime.add, ih]

theorem midiTime_qn_isSome (ppqn : Nat) (sr : Option Nat) (l : List TrackEvent) :
    ((l.foldl MidiTime.add (midiTimeStart ppqn sr)).qn_duration).isSome = true ↔
      ∃ j, j < l.length ∧ isTempoEvent (l.getD j defaultEvent) = true := by
  induction l using List.reverseRecOn with
  | nil => simp [midiTimeStart]
  | append_singleton l e ih =>
    rw [List.foldl_append]
    simp only [List.foldl_cons, List.foldl_nil]
    by_cases he : isTempoEvent e = true
    · rw [iff_true_intro ((midiTime_add_qn _ e).2 he)]
      simp only [true_iff]
      refine ⟨l.length, by simp, ?_⟩
      rw [List.getD_eq_getElem?_getD, List.getElem?_append_right (le_refl l.length)]
      simpa using he
    · have he' : isTempoEvent e = false := by simp [he]
      rw [(midiTime_add_qn _ e).1 he']
      rw [ih]
      constructor
      · rintro ⟨j, hj, ht⟩
        refine ⟨j, by simp; omega, ?_⟩
        rw [List.getD_eq_getElem?_getD, List.getElem?_append_left hj]
        rw [List.getD_eq_getElem?_getD] at ht
        exact ht
      · rintro ⟨j, hj, ht⟩
        simp only [List.length_append, List.length_cons, List.length_nil] at hj
        rcases Nat.lt_or_ge j l.length with hjl | hjl
        · refine ⟨j, hjl, ?_⟩
          rw [List.getD_eq_getElem?_getD, List.getElem?_append_left hjl] at ht
          rw [List.getD_eq_getElem?_getD]
          exact ht
        · exfalso
          have hje : j = l.length := by omega
          rw [List.getD_eq_getElem?_getD, hje,
            List.getElem?_append_right (le_refl l.length)] at ht
          simp at ht
          rw [ht] at he
          exact he rfl

theorem sum_deltas_eq_zero_iff (l : List TrackEvent) :
    (l.map TrackEvent.delta).sum = 0 ↔
      ∀ m, m < l.length → (l.getD m defaultEvent).delta = 0 := by
  rw [List.sum_eq_zero_iff]
  constructor
  · intro h m hm
    apply h
    rw [List.mem_map]
    exact ⟨l.getD m defaultEvent, by rw [List.getD_eq_getElem l defaultEvent hm]; simp [hm], rfl⟩
  · intro h x hx
    rw [List.mem_map] at hx
    obtain ⟨ev, hev, rfl⟩ := hx
    obtain ⟨m, hm, rfl⟩ := List.mem_iff_getElem.mp hev
    have := h m hm
    rw [List.getD_eq_getElem l defaultEvent hm] at this
    exact this

theorem getD_append_lt (l : List TrackEvent) (e : TrackEvent) (j : Nat) (hj : j < l.length) :
    (l ++ [e]).getD j defaultEvent = l.getD j defaultEvent := by
  rw [List.getD_eq_getElem?_getD, List.getElem?_append_left hj, ← List.getD_eq_getElem?_getD]

theorem getD_append_last (l : List TrackEvent) (e : TrackEvent) :
    (l ++ [e]).getD l.length defaultEvent = e := by
  rw [List.getD_eq_getElem?_getD, List.getElem?_append_right (le_refl _)]
  simp

/-- Counterexample to C7 as stated: after the one-event prefix holding a
Tempo meta at delta 0, the prefix contains a Tempo event but `realtime`
is still undefined, because a tempo only takes effect after its own
event. -/
theorem realtime_iff_tempo_counterexample :
    ¬ ((([evTempo].foldl MidiTime.add (midiTimeStart 480 none)).realtime).isSome = true
        ↔ [evTempo].any isTempoEvent = true) := by decide

/-- C7 amended: after folding `MidiTime.add` over a metrical track
prefix, `realtime` is defined if and only if the prefix has an event
index `i` that is preceded by a Tempo meta (strictly earlier in the
prefix) and whose cumulative pulse is still 0, i.e. every delta up to
and including index `i` is 0. In particular a Tempo alone does not
define `realtime`, and a Tempo first observed at a positive pulse never
does. -/
theorem realtime_defined_iff (ppqn : Nat) (sr : Option Nat) (l : List TrackEvent) :
    ((l.foldl MidiTime.add (midiTimeStart ppqn sr)).realtime).isSome = true ↔
      ∃ i, i < l.length ∧ (∃ j, j < i ∧ isTempoEvent (l.getD j defaultEvent) = true) ∧
        ∀ m, m ≤ i → (l.getD m defaultEvent).delta = 0 := by
  induction l using List.reverseRecOn with
  | nil => simp [midiTimeStart]
  | append_singleton l e ih =>
    rw [List.foldl_append]
    simp only [List.foldl_cons, List.foldl_nil]
    rw [show (List.foldl MidiTime.add (midiTimeStart ppqn sr) l).add e
        = MidiTime.add (List.foldl MidiTime.add (midiTimeStart ppqn sr) l) e from rfl]
    rw [midiTime_add_realtime_isSome]
    simp only [Bool.and_eq_true, Bool.or_eq_true, beq_iff_eq]
    rw [ih, midiTime_qn_isSome ppqn sr l, midiTime_pulse ppqn sr l]
    constructor
    · rintro ⟨⟨j0, hj0, htj0⟩, hPZ⟩
      rcases hPZ with ⟨i, hi, ⟨j, hj, htj⟩, hall⟩ | hZ
      · refine ⟨i, by simp; omega, ⟨j, hj, ?_⟩, fun m hm => ?_⟩
        · rw [getD_append_lt l e j (by omega)]
          exact htj
        · rw [getD_append_lt l e m (by omega)]
          exact hall m hm
      · have hsum : (l.map TrackEvent.delta).sum = 0 := by omega
        have hde : e.delta = 0 := by omega
        refine ⟨l.length, by simp, ⟨j0, hj0, ?_⟩, fun m hm => ?_⟩
        · rw [getD_append_lt l e j0 hj0]
          exact htj0
        · rcases Nat.lt_or_ge m l.length with hml | hml
          · rw [getD_append_lt l e m hml]
            exact (sum_deltas_eq_zero_iff l).mp hsum m hml
          · have : m = l.length := by omega
            rw [this, getD_append_last l e]
            exact hde
    · rintro ⟨i, hi, ⟨j, hj, htj⟩, hall⟩
      simp only [List.length_append, List.length_cons, List.length_nil] at hi
      have hjl : j < l.length := by omega
      rw [getD_append_lt l e j hjl] at htj
      refine ⟨⟨j, hjl, htj⟩, ?_⟩
      rcases Nat.lt_or_ge i l.length with hil | hil
      · left
        refine ⟨i, hil, ⟨j, hj, htj⟩, fun m hm => ?_⟩
        rw [← getD_append_lt l e m (by omega)]
        exact hall m hm
      · right
        have hieq : i = l.length := by omega
        have hsum : (l.map TrackEvent.delta).sum = 0 := by
          rw [sum_deltas_eq_zero_iff]
          intro m hm
          rw [← getD_append_lt l e m hm]
          exact hall m (by omega)
        have hde : e.delta = 0 := by
          rw [← getD_append_last l e]
          exact hall l.length (by omega)
        omega

/-! ### Decimal parsing round trip -/

theorem digitChar_ne_colon (d : Nat) : digitChar d ≠ ':' := by
  unfold digitChar
  split_ifs <;> decide

theorem digitChar_ne_plus (d : Nat) : digitChar d ≠ '+' := by
  unfold digitChar
  split_ifs <;> decide

theorem digitVal_digitChar (d : Nat) (hd : d < 10) : digitVal (digitChar d) = some d := by
  interval_cases d <;> decide

theorem natDecChars_mem (n : Nat) (c : Char) (hc : c ∈ natDecChars n) :
    ∃ d, d < 10 ∧ c = digitChar d := by
  unfold natDecChars at hc
  by_cases hn : n = 0
  · rw [if_pos hn] at hc
    simp only [List.mem_singleton] at hc
    exact ⟨0, by omega, by rw [hc]; rfl⟩
  · rw [if_neg hn] at hc
    rw [List.mem_map] at hc
    obtain ⟨d, hd, rfl⟩ := hc
    rw [List.mem_reverse] at hd
    exact ⟨d, Nat.digits_lt_base (by omega) hd, rfl⟩

theorem natDecChars_ne_nil (n : Nat) : natDecChars n ≠ [] := by
  unfold natDecChars
  by_cases hn : n = 0
  · rw [if_pos hn]; simp
  · rw [if_neg hn]
    simp only [ne_eq, List.map_eq_nil_iff, List.reverse_eq_nil_iff]
    exact Nat.digits_ne_nil_iff_ne_zero.mpr hn

theorem colon_not_mem_natDecChars (n : Nat) : ':' ∉ natDecChars n := by
  intro h
  obtain ⟨d, _, hcd⟩ := natDecChars_mem n ':' h
  exact digitChar_ne_colon d hcd.symm

theorem natDecChars_headD_ne_plus (n : Nat) : (natDecChars n).headD 'A' ≠ '+' := by
  cases h : natDecChars n with
  | nil => exact absurd h (natDecChars_ne_nil n)
  | cons c rest =>
    simp only [List.headD_cons]
    obtain ⟨d, _, hcd⟩ := natDecChars_mem n c (by rw [h]; exact List.mem_cons_self c rest)
    rw [hcd]
    exact digitChar_ne_plus d

theorem parseDigitsGo_map (ds : List Nat) :
    (∀ d ∈ ds, d < 10) → ∀ acc,
      parseDigitsGo acc (ds.map digitChar) = some (ds.foldl (fun a d => a * 10 + d) acc) := by
  induction ds with
  | nil => intro _ acc; rfl
  | cons d ds ih =>
    intro hds acc
    simp only [List.map_cons, parseDigitsGo, List.foldl_cons]
    rw [digitVal_digitChar d (hds d (List.mem_cons_self d ds))]
    exact ih (fun x hx => hds x (List.mem_cons_of_mem d hx)) (acc * 10 + d)

theorem foldl_reverse_ofDigits (ds : List Nat) :
    ds.reverse.foldl (fun a d => a * 10 + d) 0 = Nat.ofDigits 10 ds := by
  rw [List.foldl_reverse]
  induction ds with
  | nil => rfl
  | cons d ds ih =>
    simp only [List.foldr_cons]
    rw [ih, Nat.ofDigits_cons]
    omega

theorem parseDigitsGo_natDecChars (n : Nat) : parseDigitsGo 0 (natDecChars n) = some n := by
  by_cases hn : n = 0
  · subst hn; decide
  · unfold natDecChars
    rw [if_neg hn]
    rw [parseDigitsGo_map (Nat.digits 10 n).reverse
      (fun d hd => Nat.digits_lt_base (by omega) (List.mem_reverse.mp hd)) 0]
    rw [foldl_reverse_ofDigits, Nat.ofDigits_digits]

theorem parseUnsigned_natDecChars (n bound : Nat) :
    parseUnsigned (natDecChars n) bound = if n < bound then some n else none := by
  unfold parseUnsigned
  rw [if_neg (natDecChars_headD_ne_plus n)]
  rw [if_neg (natDecChars_ne_nil n)]
  rw [parseDigitsGo_natDecChars n]
  rfl

theorem splitOnceColon_append (a b : List Char) (ha : ':' ∉ a) :
    splitOnceColon (a ++ ':' :: b) = some (a, b) := by
  induction a with
  | nil => simp [splitOnceColon]
  | cons c a ih =>
    have hc : ¬ (c = ':') := fun h => ha (by rw [h]; exact List.mem_cons_self ':' a)
    simp only [List.cons_append, splitOnceColon, if_neg hc]
    rw [show a.append (':' :: b) = a ++ ':' :: b from rfl]
    rw [ih fun h => ha (List.mem_cons_of_mem c h)]
    rfl

theorem splitOnceColon_none (l : List Char) (h : ':' ∉ l) : splitOnceColon l = none := by
  induction l with
  | nil => rfl
  | cons c l ih =>
    have hc : ¬ (c = ':') := fun hcc => h (by rw [hcc]; exact List.mem_cons_self ':' l)
    simp only [splitOnceColon, if_neg hc]
    rw [ih fun hm => h (List.mem_cons_of_mem c hm)]
    rfl

/-- C8: parsing a B/P string with `from_str` and resolving it with
`total_pulse` under metrical timing follows the `qn * ppqn + pulse`
arithmetic: a canonical decimal pair `q:p` resolves to `q * ppqn + p`;
either side of the colon may be omitted and defaults to 0; a bare
decimal integer resolves to itself; and a beat whose pulse part does not
fit into 15 bits is a parse error. Concretely, at PPQN 480: `4:240`
resolves to 2160, `4:` to 1920, `:240` to 240, `2160` to 2160, and
`4:40000` fails to parse. -/
theorem pulse_or_beat_parsing (ppqn : Nat) :
    (∀ q p, p < 2 ^ 15 → q < 2 ^ 64 → q * ppqn + p < 2 ^ 64 →
      ((PulseOrBeat.from_str (natDecChars q ++ ':' :: natDecChars p)).map
          fun v => v.total_pulse (.metrical ppqn)) = some (some (q * ppqn + p))) ∧
    (∀ q, q < 2 ^ 64 →
      PulseOrBeat.from_str (natDecChars q ++ [':']) = some (.beat q 0)) ∧
    (∀ p, p < 2 ^ 15 →
      PulseOrBeat.from_str (':' :: natDecChars p) = some (.beat 0 p)) ∧
    (∀ n, n < 2 ^ 64 →
      ((PulseOrBeat.from_str (natDecChars n)).map fun v => v.total_pulse (.metrical ppqn))
        = some (some n)) ∧
    (∀ q p, q < 2 ^ 64 → 2 ^ 15 ≤ p →
      PulseOrBeat.from_str (natDecChars q ++ ':' :: natDecChars p) = none) ∧
    ((PulseOrBeat.from_str ['4', ':', '2', '4', '0']).map
        fun v => v.total_pulse (.metrical 480)) = some (some 2160) ∧
    ((PulseOrBeat.from_str ['4', ':']).map
        fun v => v.total_pulse (.metrical 480)) = some (some 1920) ∧
    ((PulseOrBeat.from_str [':', '2', '4', '0']).map
        fun v => v.total_pulse (.metrical 480)) = some (some 240) ∧
    ((PulseOrBeat.from_str ['2', '1', '6', '0']).map
        fun v => v.total_pulse (.metrical 480)) = some (some 2160) ∧
    PulseOrBeat.from_str ['4', ':', '4', '0', '0', '0', '0'] = none := by
  refine ⟨?_, ?_, ?_, ?_, ?_, by decide, by decide, by decide, by decide, by decide⟩
  · intro q p hp hq hsum
    have hp16 : p < 2 ^ 16 := by omega
    simp only [PulseOrBeat.from_str, splitOnceColon_append _ _ (colon_not_mem_natDecChars q),
      if_neg (natDecChars_ne_nil q), if_neg (natDecChars_ne_nil p),
      parseUnsigned_natDecChars, if_pos hq, if_pos hp16, Option.some_bind, if_pos hp]
    simp [PulseOrBeatValue.total_pulse, Nat.mod_eq_of_lt hsum]
    omega
  · intro q hq
    have h0 : (['0'] : List Char) = natDecChars 0 := rfl
    simp only [PulseOrBeat.from_str, splitOnceColon_append _ [] (colon_not_mem_natDecChars q),
      if_neg (natDecChars_ne_nil q), if_pos rfl, h0, if_true, parseUnsigned_natDecChars,
      if_pos hq, Option.some_bind]
    norm_num
  · intro p hp
    have hp16 : p < 2 ^ 16 := by omega
    have hsplit : splitOnceColon (':' :: natDecChars p) = some ([], natDecChars p) := by
      simp [splitOnceColon]
    have h0 : (['0'] : List Char) = natDecChars 0 := rfl
    simp only [PulseOrBeat.from_str, hsplit, if_pos rfl, if_neg (natDecChars_ne_nil p), h0,
      if_true, parseUnsigned_natDecChars, if_pos hp16, Option.some_bind, if_pos hp]
    norm_num
  · intro n hn
    simp only [PulseOrBeat.from_str, splitOnceColon_none _ (colon_not_mem_natDecChars n),
      parseUnsigned_natDecChars, if_pos hn]
    rfl
  · intro q p hq hp
    by_cases hp16 : p < 2 ^ 16
    · have hp15 : ¬ (p < 2 ^ 15) := by omega
      simp only [PulseOrBeat.from_str, splitOnceColon_append _ _ (colon_not_mem_natDecChars q),
        if_neg (natDecChars_ne_nil q), if_neg (natDecChars_ne_nil p),
        parseUnsigned_natDecChars, if_pos hq, if_pos hp16, Option.some_bind, if_neg hp15]
    · simp only [PulseOrBeat.from_str, splitOnceColon_append _ _ (colon_not_mem_natDecChars q),
        if_neg (natDecChars_ne_nil q), if_neg (natDecChars_ne_nil p),
        parseUnsigned_natDecChars, if_pos hq, if_neg hp16, Option.some_bind, Option.none_bind]

/-- Witness for C8: the general beat arithmetic applied at q = 4,
p = 240, PPQN 480. -/
theorem pulse_or_beat_parsing_witness :
    ((PulseOrBeat.from_str (natDecChars 4 ++ ':' :: natDecChars 240)).map
        fun v => v.total_pulse (.metrical 480)) = some (some (4 * 480 + 240)) :=
  (pulse_or_beat_parsing 480).1 4 240 (by norm_num) (by norm_num) (by norm_num)

/-! ### The SMF0 flattener -/

theorem minPofiIdx_none_iff (st : List TrackMerge) : minPofiIdx st = none ↔ st = [] := by
  cases st with
  | nil => simp [minPofiIdx]
  | cons m rest =>
    simp only [minPofiIdx]
    cases hr : minPofiIdx rest with
    | none => simp
    | some j =>
      constructor
      · intro h
        exfalso
        have h2 : (if m.pulse_of_i ≤ (rest.getD j ⟨[], 0⟩).pulse_of_i then some 0
            else some (j + 1)) = (none : Option Nat) := h
        by_cases hle : m.pulse_of_i ≤ (rest.getD j ⟨[], 0⟩).pulse_of_i
        · rw [if_pos hle] at h2; cases h2
        · rw [if_neg hle] at h2; cases h2
      · intro h; cases h

theorem minPofiIdx_min (st : List TrackMerge) (j : Nat) (h : minPofiIdx st = some j) :
    ∀ m' ∈ st, (st.getD j ⟨[], 0⟩).pulse_of_i ≤ m'.pulse_of_i := by
  induction st generalizing j with
  | nil => intro m' hm'; simp at hm'
  | cons m rest ih =>
    intro m' hm'
    simp only [minPofiIdx] at h
    cases hr : minPofiIdx rest with
    | none =>
      rw [hr] at h
      have hrest : rest = [] := (minPofiIdx_none_iff rest).mp hr
      subst hrest
      simp only [Option.some.injEq] at h
      have hj0 : j = 0 := h.symm
      subst hj0
      have : m' = m := by simpa using hm'
      subst this
      exact le_refl _
    | some j0 =>
      rw [hr] at h
      have h2 : (if m.pulse_of_i ≤ (rest.getD j0 ⟨[], 0⟩).pulse_of_i then some 0
          else some (j0 + 1)) = some j := h
      by_cases hle : m.pulse_of_i ≤ (rest.getD j0 ⟨[], 0⟩).pulse_of_i
      · rw [if_pos hle] at h2
        have hj0 : j = 0 := (Option.some.inj h2).symm
        subst hj0
        simp only [List.getD_cons_zero]
        rcases List.mem_cons.mp hm' with rfl | hmr
        · exact le_refl _
        · exact le_trans hle (ih j0 hr m' hmr)
      · rw [if_neg hle] at h2
        have hj0 : j = j0 + 1 := (Option.some.inj h2).symm
        subst hj0
        simp only [List.getD_cons_succ]
        rcases List.mem_cons.mp hm' with rfl | hmr
        · omega
        · exact ih j0 hr m' hmr

theorem getD_mem_of_lt (st : List TrackMerge) (j : Nat) (hj : j < st.length) :
    st.getD j ⟨[], 0⟩ ∈ st := by
  rw [List.getD_eq_getElem st _ hj]
  exact List.getElem_mem hj

theorem sum_map_set_merge (f : TrackMerge → Multiset (Nat × TrackEventKind)) :
    ∀ (st : List TrackMerge) (j : Nat) (m' : TrackMerge), j < st.length →
      ((st.set j m').map f).sum + f (st.getD j ⟨[], 0⟩) = (st.map f).sum + f m' := by
  intro st
  induction st with
  | nil => intro j m' hj; simp at hj
  | cons m rest ih =>
    intro j m' hj
    cases j with
    | zero =>
      simp only [List.set_cons_zero, List.map_cons, List.sum_cons, List.getD_cons_zero]
      abel
    | succ j =>
      simp only [List.set_cons_succ, List.map_cons, List.sum_cons, List.getD_cons_succ]
      have := ih j m' (by simpa using hj)
      rw [add_assoc, this, add_assoc]

theorem sum_map_erase_merge (f : TrackMerge → Multiset (Nat × TrackEventKind)) :
    ∀ (st : List TrackMerge) (j : Nat), j < st.length →
      ((st.eraseIdx j).map f).sum + f (st.getD j ⟨[], 0⟩) = (st.map f).sum := by
  intro st
  induction st with
  | nil => intro j hj; simp at hj
  | cons m rest ih =>
    intro j hj
    cases j with
    | zero =>
      simp only [List.eraseIdx_cons_zero, List.map_cons, List.sum_cons, List.getD_cons_zero]
      exact add_comm _ _
    | succ j =>
      simp only [List.eraseIdx_cons_succ, List.map_cons, List.sum_cons, List.getD_cons_succ]
      have := ih j (by simpa using hj)
      rw [add_assoc, this]

theorem wfTrack_head_eot (ev : TrackEvent) (rest : List TrackEvent)
    (h : wfTrack (ev :: rest)) : (isEOT ev.kind = true ↔ rest = []) := by
  have h0 := h 0 (by simp)
  rw [List.getD_cons_zero] at h0
  simp only [List.length_cons] at h0
  rw [show (isEOT ev.kind = true) = (isEOT ev.kind : Prop) from rfl, h0]
  constructor
  · intro h1
    have : rest.length = 0 := by omega
    exact List.length_eq_zero.mp this
  · intro h1
    subst h1
    simp

theorem wfTrack_tail (ev : TrackEvent) (rest : List TrackEvent) (h : wfTrack (ev :: rest))
    (hne : rest ≠ []) : wfTrack rest := by
  intro i hi
  have h1 := h (i + 1) (by simp only [List.length_cons]; omega)
  rw [List.getD_cons_succ] at h1
  simp only [List.length_cons] at h1
  rw [h1]
  have : rest.length ≠ 0 := fun h0 => hne (List.length_eq_zero.mp h0)
  omega

theorem smfMergeGo_none (st : List TrackMerge) (pulse dl : Nat)
    (hj : minPofiIdx st = none) : smfMergeGo st pulse dl = ([], dl) := by
  rw [smfMergeGo.eq_def]
  split
  · rfl
  · rename_i j heq
    rw [hj] at heq
    cases heq

theorem smfMergeGo_step_eot (st : List TrackMerge) (pulse dl j : Nat) (ev : TrackEvent)
    (hj : minPofiIdx st = some j) (hm : (st.getD j ⟨[], 0⟩).remaining = [ev])
    (hEOT : isEOT ev.kind = true) :
    smfMergeGo st pulse dl
      = smfMergeGo (st.eraseIdx j) pulse
          (((st.getD j ⟨[], 0⟩).pulse_of_i - pulse) % 2 ^ 28) := by
  rw [smfMergeGo.eq_def]
  dsimp only
  split
  · rename_i heq
    rw [hj] at heq
    cases heq
  · rename_i j2 heq
    rw [hj] at heq
    have hj2 : j = j2 := Option.some.inj heq
    subst hj2
    split
    · rename_i hm2
      rw [hm] at hm2
      cases hm2
    · rename_i ev2 rest2 hm2
      rw [hm] at hm2
      injection hm2 with h1 h2
      subst h1
      subst h2
      rw [if_pos hEOT, dif_pos rfl]

theorem smfMergeGo_step_push (st : List TrackMerge) (pulse dl j : Nat) (ev : TrackEvent)
    (rest : List TrackEvent) (hj : minPofiIdx st = some j)
    (hm : (st.getD j ⟨[], 0⟩).remaining = ev :: rest) (hrest : rest ≠ [])
    (hEOT : isEOT ev.kind = false) :
    smfMergeGo st pulse dl
      = (⟨((st.getD j ⟨[], 0⟩).pulse_of_i - pulse) % 2 ^ 28, ev.kind⟩ ::
          (smfMergeGo
            (st.set j ⟨rest, (st.getD j ⟨[], 0⟩).pulse_of_i + (rest.headD defaultEvent).delta⟩)
            (st.getD j ⟨[], 0⟩).pulse_of_i
            (((st.getD j ⟨[], 0⟩).pulse_of_i - pulse) % 2 ^ 28)).1,
        (smfMergeGo
            (st.set j ⟨rest, (st.getD j ⟨[], 0⟩).pulse_of_i + (rest.headD defaultEvent).delta⟩)
            (st.getD j ⟨[], 0⟩).pulse_of_i
            (((st.getD j ⟨[], 0⟩).pulse_of_i - pulse) % 2 ^ 28)).2) := by
  rw [smfMergeGo.eq_def]
  dsimp only
  split
  · rename_i heq
    rw [hj] at heq
    cases heq
  · rename_i j2 heq
    rw [hj] at heq
    have hj2 : j = j2 := Option.some.inj heq
    subst hj2
    split
    · rename_i hm2
      rw [hm] at hm2
      cases hm2
    · rename_i ev2 rest2 hm2
      rw [hm] at hm2
      injection hm2 with h1 h2
      subst h1
      subst h2
      rw [if_neg (by simp [hEOT]), dif_neg hrest]

/-- The heart of the flattener proof: under the loop invariants the
events emitted by the merge loop fire, relative to the running `pulse`,
exactly at the absolute pulses recorded per track in `pulse_of_i`. -/
theorem smfMergeGo_fires :
    ∀ (st : List TrackMerge) (pulse dl : Nat),
      (∀ m ∈ st, pulse ≤ m.pulse_of_i) →
      (∀ m ∈ st, m.pulse_of_i ≤ pulse + (m.remaining.headD defaultEvent).delta) →
      (∀ m ∈ st, m.remaining ≠ [] ∧ wfTrack m.remaining) →
      (∀ m ∈ st, ∀ ev ∈ m.remaining, ev.delta < 2 ^ 28) →
      firesFrom pulse (smfMergeGo st pulse dl).1
        = (st.map fun m => remFires m.pulse_of_i m.remaining).sum := by
  intro st pulse dl
  induction st, pulse, dl using smfMergeGo.induct with
  | case1 st pulse dl hj =>
    intro _ _ _ _
    have hempty : st = [] := (minPofiIdx_none_iff st).mp hj
    subst hempty
    rw [smfMergeGo_none [] pulse dl hj]
    rfl
  | case2 st pulse dl j hj m hm =>
    intro _ _ hwf _
    unfold m at hm
    exfalso
    have hjl := minPofiIdx_lt_length st j hj
    have hmem := getD_mem_of_lt st j hjl
    exact (hwf _ hmem).1 hm
  | case3 st pulse dl j hj m ev rest hm dl2 hEOT ih2 ih1 =>
    intro hI1 hI2 hwf hdelta
    unfold dl2 at ih2 ih1
    unfold m at hm ih2 ih1
    have hjl := minPofiIdx_lt_length st j hj
    have hmem := getD_mem_of_lt st j hjl
    have hwfcons : wfTrack (ev :: rest) := by rw [← hm]; exact (hwf _ hmem).2
    have hrest : rest = [] := (wfTrack_head_eot ev rest hwfcons).mp hEOT
    subst hrest
    rw [smfMergeGo_step_eot st pulse dl j ev hj hm hEOT]
    have hsub : ∀ m' ∈ st.eraseIdx j, m' ∈ st :=
      fun m' hm' => (List.eraseIdx_sublist st j).subset hm'
    rw [ih2 (fun m' h => hI1 m' (hsub m' h)) (fun m' h => hI2 m' (hsub m' h))
        (fun m' h => hwf m' (hsub m' h)) (fun m' h => hdelta m' (hsub m' h))]
    have hsum := sum_map_erase_merge (fun m => remFires m.pulse_of_i m.remaining) st j hjl
    simp only at hsum
    have hf0 : remFires (st.getD j ⟨[], 0⟩).pulse_of_i (st.getD j ⟨[], 0⟩).remaining
        = 0 := by
      rw [hm]
      simp [remFires, hEOT]
    rw [hf0, add_zero] at hsum
    exact hsum
  | case4 st pulse dl j hj m ev rest hm dl2 hEOT ih2 ih1 =>
    intro hI1 hI2 hwf hdelta
    unfold dl2 at ih2 ih1
    unfold m at hm ih2 ih1
    have hjl := minPofiIdx_lt_length st j hj
    have hmem := getD_mem_of_lt st j hjl
    have hwfcons : wfTrack (ev :: rest) := by rw [← hm]; exact (hwf _ hmem).2
    have hEOT' : isEOT ev.kind = false := by
      cases h : isEOT ev.kind
      · rfl
      · exact absurd h hEOT
    have hrest : rest ≠ [] := by
      intro h
      have h2 := (wfTrack_head_eot ev rest hwfcons).mpr h
      rw [h2] at hEOT'
      cases hEOT'
    rw [smfMergeGo_step_push st pulse dl j ev rest hj hm hrest hEOT']
    simp only [firesFrom]
    have hP : pulse ≤ (st.getD j ⟨[], 0⟩).pulse_of_i := hI1 _ hmem
    have hd : (st.getD j ⟨[], 0⟩).pulse_of_i ≤ pulse + ev.delta := by
      have h2 := hI2 _ hmem
      rw [hm] at h2
      simpa using h2
    have hdev : ev.delta < 2 ^ 28 :=
      hdelta _ hmem ev (by rw [hm]; exact List.mem_cons_self ev rest)
    have hplus : pulse + (((st.getD j ⟨[], 0⟩).pulse_of_i - pulse) % 2 ^ 28)
        = (st.getD j ⟨[], 0⟩).pulse_of_i := by
      rw [Nat.mod_eq_of_lt (by omega)]
      omega
    rw [hplus]
    have hminall : ∀ m' ∈ st, (st.getD j ⟨[], 0⟩).pulse_of_i ≤ m'.pulse_of_i :=
      minPofiIdx_min st j hj
    have hA : ∀ m' ∈ st.set j
        ⟨rest, (st.getD j ⟨[], 0⟩).pulse_of_i + (rest.headD defaultEvent).delta⟩,
        (st.getD j ⟨[], 0⟩).pulse_of_i ≤ m'.pulse_of_i := by
      intro m' hm'
      rcases List.mem_or_eq_of_mem_set hm' with h | rfl
      · exact hminall m' h
      · simp only
        omega
    have hB : ∀ m' ∈ st.set j
        ⟨rest, (st.getD j ⟨[], 0⟩).pulse_of_i + (rest.headD defaultEvent).delta⟩,
        m'.pulse_of_i ≤ (st.getD j ⟨[], 0⟩).pulse_of_i
          + (m'.remaining.headD defaultEvent).delta := by
      intro m' hm'
      rcases List.mem_or_eq_of_mem_set hm' with h | rfl
      · have h2 := hI2 m' h
        omega
      · simp only
        exact le_refl _
    have hC : ∀ m' ∈ st.set j
        ⟨rest, (st.getD j ⟨[], 0⟩).pulse_of_i + (rest.headD defaultEvent).delta⟩,
        m'.remaining ≠ [] ∧ wfTrack m'.remaining := by
      intro m' hm'
      rcases List.mem_or_eq_of_mem_set hm' with h | rfl
      · exact hwf m' h
      · exact ⟨hrest, wfTrack_tail ev rest hwfcons hrest⟩
    have hD : ∀ m' ∈ st.set j
        ⟨rest, (st.getD j ⟨[], 0⟩).pulse_of_i + (rest.headD defaultEvent).delta⟩,
        ∀ ev' ∈ m'.remaining, ev'.delta < 2 ^ 28 := by
      intro m' hm'
      rcases List.mem_or_eq_of_mem_set hm' with h | rfl
      · exact hdelta m' h
      · intro ev' hev'
        exact hdelta _ hmem ev' (by rw [hm]; exact List.mem_cons_of_mem ev hev')
    rw [ih1 hA hB hC hD]
    have hsum := sum_map_set_merge (fun m => remFires m.pulse_of_i m.remaining) st j
      ⟨rest, (st.getD j ⟨[], 0⟩).pulse_of_i + (rest.headD defaultEvent).delta⟩ hjl
    simp only at hsum
    have hfm : remFires (st.getD j ⟨[], 0⟩).pulse_of_i (st.getD j ⟨[], 0⟩).remaining
        = {((st.getD j ⟨[], 0⟩).pulse_of_i, ev.kind)}
          + remFires ((st.getD j ⟨[], 0⟩).pulse_of_i + (rest.headD defaultEvent).delta)
              rest := by
      rw [hm]
      simp [remFires, hEOT']
    rw [hfm] at hsum
    have hre : (({((st.getD j ⟨[], 0⟩).pulse_of_i, ev.kind)} : Multiset (Nat × TrackEventKind))
          + ((st.set j
              ⟨rest, (st.getD j ⟨[], 0⟩).pulse_of_i + (rest.headD defaultEvent).delta⟩).map
              fun m => remFires m.pulse_of_i m.remaining).sum)
          + remFires ((st.getD j ⟨[], 0⟩).pulse_of_i + (rest.headD defaultEvent).delta) rest
        = (st.map fun m => remFires m.pulse_of_i m.remaining).sum
          + remFires ((st.getD j ⟨[], 0⟩).pulse_of_i + (rest.headD defaultEvent).delta) rest := by
      rw [← hsum]
      abel
    exact add_right_cancel hre

theorem firesFromNonEOT_eq_remFires :
    ∀ (l : List TrackEvent) (base : Nat),
      firesFromNonEOT base l = remFires (base + (l.headD defaultEvent).delta) l := by
  intro l
  induction l with
  | nil => intro base; rfl
  | cons ev rest ih =>
    intro base
    simp only [firesFromNonEOT, List.headD_cons, remFires]
    rw [ih (base + ev.delta)]

theorem initMerges_remFires_sum :
    ∀ tracks : List (List TrackEvent),
      ((initMerges tracks).map fun m => remFires m.pulse_of_i m.remaining).sum
        = (tracks.map (firesFromNonEOT 0)).sum := by
  intro tracks
  induction tracks with
  | nil => rfl
  | cons t rest ih =>
    cases t with
    | nil =>
      simp only [initMerges, List.filterMap_cons, List.head?_nil, Option.map_none,
        List.map_cons, List.sum_cons, firesFromNonEOT, zero_add]
      exact ih
    | cons ev tl =>
      simp only [initMerges, List.filterMap_cons, List.head?_cons, Option.map_some,
        List.map_cons, List.sum_cons]
      rw [firesFromNonEOT_eq_remFires (ev :: tl) 0]
      simp only [List.headD_cons, Nat.zero_add]
      exact congrArg _ ih

theorem mem_initMerges :
    ∀ (tracks : List (List TrackEvent)) (m : TrackMerge), m ∈ initMerges tracks →
      m.remaining ∈ tracks ∧ m.remaining ≠ [] ∧
        m.pulse_of_i = (m.remaining.headD defaultEvent).delta := by
  intro tracks m hm
  simp only [initMerges, List.mem_filterMap] at hm
  obtain ⟨t, ht, hf⟩ := hm
  cases t with
  | nil => simp at hf
  | cons ev tl =>
    simp only [List.head?_cons, Option.map_some', Option.some.injEq] at hf
    subst hf
    exact ⟨ht, List.cons_ne_nil ev tl, rfl⟩

/-- C9: for a multi-track file, the `smf0` merge loop preserves the absolute
firing pulse of every retained event: the multiset of (cumulative pulse, kind)
pairs of the events emitted into the flattened track equals the union over the
source tracks of the (cumulative pulse, kind) pairs of their non-EndOfTrack
events. The hypotheses say the file is a well-formed multi-track SMF: each
track ends with exactly one EndOfTrack, and every delta fits in 28 bits. -/
theorem smf0_preserves_firing_pulses (tracks : List (List TrackEvent))
    (_hn : 2 ≤ tracks.length)
    (hwf : ∀ t ∈ tracks, wfTrack t)
    (hdelta : ∀ t ∈ tracks, ∀ ev ∈ t, ev.delta < 2 ^ 28) :
    firesFrom 0 (smf0_events tracks) = (tracks.map (firesFromNonEOT 0)).sum := by
  unfold smf0_events
  have hA : ∀ m ∈ initMerges tracks, 0 ≤ m.pulse_of_i := fun m _ => Nat.zero_le _
  have hB : ∀ m ∈ initMerges tracks,
      m.pulse_of_i ≤ 0 + (m.remaining.headD defaultEvent).delta := by
    intro m hm
    obtain ⟨_, _, hp⟩ := mem_initMerges tracks m hm
    omega
  have hC : ∀ m ∈ initMerges tracks, m.remaining ≠ [] ∧ wfTrack m.remaining := by
    intro m hm
    obtain ⟨hmem, hne, _⟩ := mem_initMerges tracks m hm
    exact ⟨hne, hwf _ hmem⟩
  have hD : ∀ m ∈ initMerges tracks, ∀ ev ∈ m.remaining, ev.delta < 2 ^ 28 := by
    intro m hm
    obtain ⟨hmem, _, _⟩ := mem_initMerges tracks m hm
    exact hdelta _ hmem
  rw [smfMergeGo_fires (initMerges tracks) 0 0 hA hB hC hD, initMerges_remFires_sum]

/-- Witness for C9 at the concrete two-track input `tracksAB`. -/
theorem smf0_preserves_firing_pulses_witness :
    firesFrom 0 (smf0_events tracksAB) = (tracksAB.map (firesFromNonEOT 0)).sum :=
  smf0_preserves_firing_pulses tracksAB (by decide) (by decide) (by decide)
